import Mathlib

/-!
Shallow embedding of the `ap-yaml-obfuscator` repository
(`src/apmodel.py`, `src/obfuscate.py`, `src/ap-obfuscate.py`) and proofs
about the claims of its specification.

Modelling conventions:
* Python generic values (results of the YAML reader) are modelled by the
  mutual inductive `Value` / `ValueSeq` / `ValueMap` below.  A `ValueMap`
  models a Python `dict` as an insertion-ordered association list with
  pairwise-distinct keys (Python dicts preserve insertion order; assignment
  to an existing key updates it in place, assignment to a new key appends,
  `del` removes the entry).
* Python `dict[str, α]` values are modelled as `List (String × α)` with the
  same ordered-association-list semantics.
* Python exceptions are modelled with `Except PyErr`.  Error message texts
  are kept close to the source but are cosmetic; only the kind of error and
  whether one is raised matter for the claims.  `e.add_note(...)` is
  modelled by appending the note to the message.
* The random source of `generate_new_name` (`random.choice` /
  `random.randint` over the fixed alphabet `WEIRD_CHARS`) is abstracted as
  an oracle `gen : Nat → String` giving the successive results of
  `generate_new_name`, together with a position counter threaded through
  the computation.  The claims under study quantify over (or exhibit
  particular) behaviours of this oracle; the length bounds and the exact
  alphabet never matter for them.
* Python's `bool` is a subtype of `int`: `isinstance(True, int)` is `True`
  and `str(True) = "True"`.  The embedding reproduces this in the branches
  that test `isinstance(key, int)`.
-/

/-- Kinds of Python exceptions raised by the sources.  `notImplemented`
models `NotImplementedError` (the only kind that `Option.parse` and the
escaped encoder catch); every other exception kind is fatal. -/
inductive PyErr where
  | notImplemented (msg : String)
  | keyError (msg : String)
  | attributeError (msg : String)
  | assertionError (msg : String)
  | indexError (msg : String)
  | exception (msg : String)
deriving DecidableEq, Repr

/-- Model of `Exception.add_note`: the note is appended to the message. -/
def PyErr.addNote : PyErr → String → PyErr
  | .notImplemented m, n => .notImplemented (m ++ "; " ++ n)
  | .keyError m, n => .keyError (m ++ "; " ++ n)
  | .attributeError m, n => .attributeError (m ++ "; " ++ n)
  | .assertionError m, n => .assertionError (m ++ "; " ++ n)
  | .indexError m, n => .indexError (m ++ "; " ++ n)
  | .exception m, n => .exception (m ++ "; " ++ n)

mutual
/-- A generic Python value as produced by `yaml.safe_load`: strings,
integers, booleans, `None`, floats (kept opaque, carrying only their
`str()` rendering), lists and dicts.  Python floats are opaque here because
no claim depends on float arithmetic, only on a float's type tag and its
textual rendering. -/
inductive Value where
  | str (s : String)
  | int (n : Int)
  | bool (b : Bool)
  | null
  | float (render : String)
  | list (xs : ValueSeq)
  | dict (entries : ValueMap)
deriving DecidableEq, Repr

/-- The spine of a Python list of generic values. -/
inductive ValueSeq where
  | nil
  | cons (hd : Value) (tl : ValueSeq)
deriving DecidableEq, Repr

/-- The spine of a Python dict of generic values: insertion-ordered
key/value entries. -/
inductive ValueMap where
  | nil
  | cons (k : Value) (v : Value) (tl : ValueMap)
deriving DecidableEq, Repr
end

/-- Length of a `ValueSeq`. -/
def ValueSeq.length : ValueSeq → Nat
  | .nil => 0
  | .cons _ tl => tl.length + 1

/-- The entries of a `ValueMap` as a list of pairs. -/
def ValueMap.entries : ValueMap → List (Value × Value)
  | .nil => []
  | .cons k v tl => (k, v) :: tl.entries

/-- The keys of a `ValueMap`, in insertion order. -/
def ValueMap.keys : ValueMap → List Value
  | .nil => []
  | .cons k _ tl => k :: tl.keys

/-- Python `d[k]` / `d.get(k)` lookup on a dict of generic values (first
matching entry; a well-formed Python dict has distinct keys). -/
def ValueMap.lookup : ValueMap → Value → Option Value
  | .nil, _ => none
  | .cons k v tl, k' => if k = k' then some v else tl.lookup k'

/-- Python `d[k] = v` on a dict of generic values: update in place if the
key is present, append otherwise. -/
def ValueMap.set : ValueMap → Value → Value → ValueMap
  | .nil, k', v' => .cons k' v' .nil
  | .cons k v tl, k', v' =>
    if k = k' then .cons k v' tl else .cons k v (tl.set k' v')

/-- Python `del d[k]` on a dict of generic values.  (Python raises
`KeyError` when the key is absent; at every call site in the sources the
key is taken from a snapshot of the same dict and is still present, so the
total remove-first-occurrence function is an exact model there.) -/
def ValueMap.del : ValueMap → Value → ValueMap
  | .nil, _ => .nil
  | .cons k v tl, k' => if k = k' then tl else .cons k v (tl.del k')

/-- Python `k in d` on a dict of generic values. -/
def ValueMap.hasKey (m : ValueMap) (k : Value) : Bool :=
  (m.lookup k).isSome

/-- Python `d[k]` / `d.get(k)` lookup on a string-keyed dict
(`dict[str, α]`), modelled as an ordered association list. -/
def dlookup {α : Type} : List (String × α) → String → Option α
  | [], _ => none
  | (k, v) :: tl, k' => if k = k' then some v else dlookup tl k'

/-- Python `d[k] = v` on a string-keyed dict: update in place if present,
append otherwise. -/
def dset {α : Type} : List (String × α) → String → α → List (String × α)
  | [], k', v' => [(k', v')]
  | (k, v) :: tl, k', v' =>
    if k = k' then (k, v') :: tl else (k, v) :: dset tl k' v'

/-- Python `del d[k]` on a string-keyed dict (see `ValueMap.del` for why
the absent-key case never occurs at the call sites). -/
def ddel {α : Type} : List (String × α) → String → List (String × α)
  | [], _ => []
  | (k, v) :: tl, k' => if k = k' then tl else (k, v) :: ddel tl k'

/-- Python `d.keys()` on a string-keyed dict, in insertion order. -/
def dkeys {α : Type} (d : List (String × α)) : List String :=
  d.map Prod.fst

mutual
/-- Python `str()` of a generic value, as used by `str(k)` in
`WeightedOption.parse` and by f-string interpolation.  Scalars are exact
(`str(True) = "True"`, `str(None) = "None"`); the container cases follow
Python's `repr`-based rendering, whose exact text no claim depends on. -/
def pyStr : Value → String
  | .str s => s
  | .int n => toString n
  | .bool b => if b then "True" else "False"
  | .null => "None"
  | .float r => r
  | .list xs => "[" ++ pyStrSeq xs ++ "]"
  | .dict es => "\x7b" ++ pyStrMap es ++ "\x7d"

/-- Helper for `pyStr` on list bodies. -/
def pyStrSeq : ValueSeq → String
  | .nil => ""
  | .cons x .nil => pyStr x
  | .cons x tl => pyStr x ++ ", " ++ pyStrSeq tl

/-- Helper for `pyStr` on dict bodies. -/
def pyStrMap : ValueMap → String
  | .nil => ""
  | .cons k v .nil => pyStr k ++ ": " ++ pyStr v
  | .cons k v tl => pyStr k ++ ": " ++ pyStr v ++ ", " ++ pyStrMap tl
end

/-- Python `str(type(obj))` for a generic value, used in error messages. -/
def pyTypeName : Value → String
  | .str _ => "<class 'str'>"
  | .int _ => "<class 'int'>"
  | .bool _ => "<class 'bool'>"
  | .null => "<class 'NoneType'>"
  | .float _ => "<class 'float'>"
  | .list _ => "<class 'list'>"
  | .dict _ => "<class 'dict'>"

/-! ### Name generator (`ap-obfuscate.py`, lines 58-77)

`generate_new_name` draws a random length and random characters from the
`WEIRD_CHARS` alphabet.  Its successive results are abstracted as an
oracle `gen : Nat → String` together with the position of the next draw;
the claims quantify over the oracle's behaviour. -/

/-- Model of `generate_new_name`: one draw from the oracle. -/
def generate_new_name (gen : Nat → String) (pos : Nat) : String × Nat :=
  (gen pos, pos + 1)

/-- Loop body of `generate_unique_name`: up to `fuel` attempts, returning
the first drawn name that is not in `inside`. -/
def generate_unique_name_go (gen : Nat → String) (inside : List String) :
    Nat → Nat → Except PyErr (String × Nat)
  | 0, _ => .error (.exception "Unable to generate unique name")
  | fuel + 1, pos =>
    let (name, pos') := generate_new_name gen pos
    if name ∈ inside then generate_unique_name_go gen inside fuel pos'
    else .ok (name, pos')

/-- Model of `generate_unique_name`: retry `generate_new_name` within a
budget of 100000 attempts until the result avoids `inside`. -/
def generate_unique_name (gen : Nat → String) (inside : List String)
    (pos : Nat) : Except PyErr (String × Nat) :=
  generate_unique_name_go gen inside 100000 pos

/-- Loop of `generate_multiple_unique_names`: each call excludes the names
accumulated so far. -/
def generate_multiple_unique_names_go (gen : Nat → String)
    (names : List String) : Nat → Nat → Except PyErr (List String × Nat)
  | 0, pos => .ok (names, pos)
  | count + 1, pos => do
    let (name, pos') ← generate_unique_name gen names pos
    generate_multiple_unique_names_go gen (names ++ [name]) count pos'

/-- Model of `generate_multiple_unique_names`. -/
def generate_multiple_unique_names (gen : Nat → String) (count : Nat)
    (pos : Nat) : Except PyErr (List String × Nat) :=
  generate_multiple_unique_names_go gen [] count pos

/-- Model of `list_extend_beginning` (`ap-obfuscate.py`, lines 80-83):
insert the elements of `prepend_with`, reversed, one by one at index 0 of
`base_list`. -/
def list_extend_beginning {α : Type} (base_list : List α)
    (prepend_with : List α) : List α :=
  (prepend_with.reverse).foldl (fun acc elem => elem :: acc) base_list

/-! ### Escaped encoder (`obfuscate.py`) -/

/-- Lower-case hexadecimal rendering of a natural number, zero-padded to
`width` digits: Python `f'{n:04x}'` / `f'{n:08x}'`. -/
def hexPad (width n : Nat) : String :=
  let ds := (Nat.toDigits 16 n).asString
  let pad := width - ds.length
  ⟨List.replicate pad '0'⟩ ++ ds

/-- Model of `ord_to_unicode`: a code point below `2^16` renders as
`\uXXXX`, otherwise as `\UXXXXXXXX`.  (The source's asserts `0 ≤ cp < 2^32`
always hold for a code point.) -/
def ord_to_unicode (codepoint : Nat) : String :=
  if codepoint < 2 ^ 16 then "\\u" ++ hexPad 4 codepoint
  else "\\U" ++ hexPad 8 codepoint

/-- Model of `str_to_unicode_escapes`: escape every character of the
string. -/
def str_to_unicode_escapes (string : String) : String :=
  String.join (string.toList.map (fun c => ord_to_unicode c.toNat))

/-- Key dispatch of `do_dict_inner` (`obfuscate.py`, lines 25-40), given
the already-encoded value `ev` (the embedding is pure, so passing the
encoding of the value instead of computing it inside each branch is
observationally identical; the bad-key branch ignores it exactly as the
source raises before evaluating `do(value)`).  `isinstance(key, str)` is
tested first, then `isinstance(key, int)` — which in Python is also true
of `bool` keys, so a boolean key renders through the integer branch as
`True`/`False` (Python f-string interpolation of a `bool`).  A caught
`NotImplementedError` gets the note `inside repr(key)` added. -/
def dict_entry_render (key : Value) (ev : Except PyErr String) :
    Except PyErr String :=
  let note : String := "inside " ++ pyStr key
  match key with
  | .str s =>
    match ev with
    | .ok sv => .ok ("\"" ++ str_to_unicode_escapes s ++ "\":" ++ sv)
    | .error (.notImplemented m) => .error ((PyErr.notImplemented m).addNote note)
    | .error e => .error e
  | .int n =>
    match ev with
    | .ok sv => .ok (toString n ++ ": " ++ sv)
    | .error (.notImplemented m) => .error ((PyErr.notImplemented m).addNote note)
    | .error e => .error e
  | .bool b =>
    match ev with
    | .ok sv => .ok ((if b then "True" else "False") ++ ": " ++ sv)
    | .error (.notImplemented m) => .error ((PyErr.notImplemented m).addNote note)
    | .error e => .error e
  | .null =>
    match ev with
    | .ok sv => .ok ("\"\":" ++ sv)
    | .error (.notImplemented m) => .error ((PyErr.notImplemented m).addNote note)
    | .error e => .error e
  | other => .error ((PyErr.notImplemented (pyTypeName other)).addNote note)

mutual
/-- Model of `do` (`obfuscate.py`, lines 43-64): encode one generic value.
The `isinstance` checks run in source order; in particular `bool` is
tested before `int` here (unlike in `do_dict_inner`). -/
def encode : Value → Except PyErr String
  | .str s => .ok ("\"" ++ str_to_unicode_escapes s ++ "\"")
  | .list xs =>
    match encodeSeq xs with
    | .ok body => .ok ("[" ++ body ++ "]")
    | .error e => .error (e.addNote "inside list")
  | .null => .ok "null"
  | .bool b => .ok (if b then "true" else "false")
  | .int n => .ok (toString n)
  | .float r => .ok r
  | .dict es =>
    match encodeMap es with
    | .ok body => .ok ("\x7b" ++ body ++ "\x7d")
    | .error e => .error e

/-- Model of `','.join(map(do, obj))` for a list body. -/
def encodeSeq : ValueSeq → Except PyErr String
  | .nil => .ok ""
  | .cons x .nil => encode x
  | .cons x (.cons y tl) =>
    match encode x, encodeSeq (.cons y tl) with
    | .ok a, .ok b => .ok (a ++ "," ++ b)
    | .error e, _ => .error e
    | _, .error e => .error e

/-- Model of `','.join(map(lambda x: do_dict_inner(*x), obj.items()))`:
each entry goes through the `do_dict_inner` dispatch
(`dict_entry_render`) applied to the encoding of its value. -/
def encodeMap : ValueMap → Except PyErr String
  | .nil => .ok ""
  | .cons k v .nil => dict_entry_render k (encode v)
  | .cons k v (.cons k' v' tl) =>
    match dict_entry_render k (encode v), encodeMap (.cons k' v' tl) with
    | .ok a, .ok b => .ok (a ++ "," ++ b)
    | .error e, _ => .error e
    | _, .error e => .error e
end

/-- Model of `do_dict_inner`: the key dispatch applied to the encoded
value. -/
def do_dict_inner (key value : Value) : Except PyErr String :=
  dict_entry_render key (encode value)

/-- Model of `to_obfuscated_yaml`. -/
def to_obfuscated_yaml (obj : Value) : Except PyErr String :=
  encode obj

/-! ### Configuration model (`apmodel.py`) -/

/-- The special-option denylist `GAME_SPECIAL_OPTIONS`
(`apmodel.py`, lines 152-157). -/
def GAME_SPECIAL_OPTIONS : List String :=
  ["local_items", "non_local_items", "start_inventory",
   "start_inventory_from_pool",
   "start_hints", "start_location_hints",
   "exclude_locations", "priority_locations",
   "item_links",
   "plando_weakness"]

/-- The `Option` class hierarchy of `apmodel.py` plus the
`WrappedWeightedOption` subclass of `ap-obfuscate.py` (lines 86-97), as a
closed sum:
* `weighted weights` is a `WeightedOption` (weights is `dict[str, int]` by
  annotation, but `WeightedOption.parse` never coerces the values, so they
  are kept as generic values);
* `wrapped weights original_option original_name wrapped_weights_names` is
  a `WrappedWeightedOption` (also an instance of `WeightedOption`);
* `custom raw` is a `CustomOption`. -/
inductive ApOption where
  | weighted (weights : List (String × Value))
  | wrapped (weights : List (String × Value)) (original_option : ApOption)
      (original_name : String) (wrapped_weights_names : List (String × String))
  | custom (raw : Value)
deriving DecidableEq, Repr

/-- Python `isinstance(option, WeightedOption)`: true of `WeightedOption`
and of its subclass `WrappedWeightedOption`. -/
def ApOption.isWeightedOption : ApOption → Bool
  | .weighted _ => true
  | .wrapped .. => true
  | .custom _ => false

/-- The `weights` attribute.  It is only ever read on instances of
`WeightedOption` (`weighted` or `wrapped`); the `custom` case is supplied
to make the accessor total and is never reached by the engine, which
filters on `isWeightedOption` first. -/
def ApOption.weights : ApOption → List (String × Value)
  | .weighted w => w
  | .wrapped w _ _ _ => w
  | .custom _ => []

/-- The `wrapped_weights_names` attribute of `WrappedWeightedOption`,
`none` on the other variants (reading it there would be an
`AttributeError`; the engine asserts the variant first). -/
def ApOption.wrapped_weights_names : ApOption → Option (List (String × String))
  | .wrapped _ _ _ nwn => some nwn
  | _ => none

/-- The dict comprehension `{str(k): v for k, v in obj.items()}` of
`WeightedOption.parse`: keys are stringified in order; a duplicate
stringified key updates the earlier entry in place. -/
def stringify_keys : ValueMap → List (String × Value) → List (String × Value)
  | .nil, acc => acc
  | .cons k v tl, acc => stringify_keys tl (dset acc (pyStr k) v)

/-- Model of `WeightedOption.parse` (`apmodel.py`, lines 34-43), returning
the parsed `weights`.  The `isinstance` tests run in source order; a
Python `bool` satisfies `isinstance(obj, int)`, so it parses through the
scalar branch as `{str(obj): 1}`. -/
def WeightedOption.parse (obj : Value) : Except PyErr (List (String × Value)) :=
  match obj with
  | .dict es => .ok (stringify_keys es [])
  | .str s => .ok [(s, .int 1)]
  | .int n => .ok [(toString n, .int 1)]
  | .bool b => .ok [((if b then "True" else "False"), .int 1)]
  | .list _ => .error (.notImplemented "Not weighted option")
  | other => .error (.notImplemented (pyTypeName other))

/-- Model of `Option.parse` (`apmodel.py`, lines 13-20): denylisted names
parse as `CustomOption`; otherwise `WeightedOption` parsing is attempted
and a `NotImplementedError` falls back to `CustomOption`
(`CustomOption.parse` just stores the raw value).  Any other exception
kind would propagate. -/
def ApOption.parse (option_name : String) (obj : Value) : Except PyErr ApOption :=
  if option_name ∈ GAME_SPECIAL_OPTIONS then .ok (.custom obj)
  else
    match WeightedOption.parse obj with
    | .ok w => .ok (.weighted w)
    | .error (.notImplemented _) => .ok (.custom obj)
    | .error e => .error e

/-- The weights dict as a generic value (string keys), as returned by
`WeightedOption.output` in the two-or-more-labels case. -/
def weights_to_value : List (String × Value) → ValueMap
  | [] => .nil
  | (k, v) :: tl => .cons (.str k) v (weights_to_value tl)

/-- Model of `WeightedOption.output` (`apmodel.py`, lines 45-51): exactly
one label serializes as the bare label (`list(self.weights.keys())[0]`),
zero labels raises, two or more labels serialize as the mapping.  The
cases are split on the list shape, which is equivalent to the source's
`len(...) == 1` / `len(...) == 0` / `else` chain. -/
def WeightedOption.output (weights : List (String × Value)) : Except PyErr Value :=
  match weights with
  | [(k, _)] => .ok (.str k)
  | [] => .error (.exception "Empty weigthed option")
  | _ => .ok (.dict (weights_to_value weights))

/-- Model of `Option.output` dispatch: `WeightedOption` (and its subclass
`WrappedWeightedOption`, which inherits the method) serialize their
weights; `CustomOption.output` returns the raw value. -/
def ApOption.output : ApOption → Except PyErr Value
  | .weighted w => WeightedOption.output w
  | .wrapped w _ _ _ => WeightedOption.output w
  | .custom raw => .ok raw

/-- Model of the `Trigger` dataclass (`apmodel.py`, lines 67-95):
`option_category` and `option_name` are stringified by `Trigger.parse`;
`option_result` and `options` are stored raw. -/
structure Trigger where
  option_category : String
  option_name : String
  option_result : Value
  options : Value
deriving DecidableEq, Repr

/-- Model of the `Game` dataclass: name, triggers, and the option
mapping. -/
structure Game where
  name : String
  triggers : List Trigger
  options : List (String × ApOption)
deriving DecidableEq, Repr

/-- Model of the `Requires` dataclass (only the version pin). -/
structure Requires where
  version : Value
deriving DecidableEq, Repr

/-- Model of the `Root` dataclass.  `name` and `description` are stored
raw by `Root.parse`; `game_weights` keeps the raw mapping shape. -/
structure Root where
  name : Value
  description : Value
  requires : Requires
  games : List Game
  game_weights : ValueMap
  triggers : List Trigger
deriving DecidableEq, Repr

/-- Model of `Root.game_by_name` (`apmodel.py`, lines 169-173): the first
game with the given name, `IndexError` when there is none. -/
def Root.game_by_name (r : Root) (game_name : String) : Except PyErr Game :=
  match r.games.find? (fun g => g.name == game_name) with
  | some g => .ok g
  | none => .error (.indexError game_name)

/-- Writing back through the reference returned by `game_by_name`: the
first game with the given name is replaced. -/
def replace_first_game : List Game → String → Game → List Game
  | [], _, _ => []
  | g :: tl, n, g' =>
    if g.name = n then g' :: tl else g :: replace_first_game tl n g'

/-! ### Obfuscation engine (`ap-obfuscate.py`) -/

/-- Model of `WrappedWeightedOption.wrap` (`ap-obfuscate.py`, lines
92-97): copy the weights and record the identity label map.  (In
`create_wrapper_options` both fields are immediately reset and rebuilt;
see `create_wrapper_one`.) -/
def WrappedWeightedOption.wrap (name : String) (option : ApOption) : ApOption :=
  .wrapped option.weights option name (option.weights.map (fun kv => (kv.1, kv.1)))

/-- The per-label loop of `create_wrapper_options` (`ap-obfuscate.py`,
lines 134-148): for each original label, draw a fresh wrapper label
(unique within this wrapper's own label set `wrapped_weight_names`,
modelled as a list used only for membership), copy the weight, record the
label bijection, and append one trigger
`{category: game, option_name: wrapper, option_result: wrapper label,
options: {game: {original option: original label}}}`.
Arguments: remaining original labels, `wrapped_weight_names`, the wrapper
weights built so far, the label bijection built so far, the trigger list
built so far, the oracle position. -/
def wrap_labels (gen : Nat → String) (game_name orig_name wrapped_name : String) :
    List (String × Value) → List String → List (String × Value) →
    List (String × String) → List Trigger → Nat →
    Except PyErr (List String × List (String × Value) × List (String × String) × List Trigger × Nat)
  | [], names, w, nwn, trigs, pos => .ok (names, w, nwn, trigs, pos)
  | (weight_name, weight) :: rest, names, w, nwn, trigs, pos => do
    let (wwn, pos') ← generate_unique_name gen names pos
    wrap_labels gen game_name orig_name wrapped_name rest
      (names ++ [wwn])
      (dset w wwn weight)
      (dset nwn weight_name wwn)
      (trigs ++ [{ option_category := game_name, option_name := wrapped_name,
                   option_result := .str wwn,
                   options := .dict (.cons (.str game_name)
                     (.dict (.cons (.str orig_name) (.str weight_name) .nil)) .nil) }])
      pos'

/-- One iteration of the `create_wrapper_options` loop over a
`WeightedOption` (`ap-obfuscate.py`, lines 129-150): draw a fresh wrapper
option name unique among the accumulated `self.options` keys (the body of
`ContextExtra.generate_option`), rebuild the weights and label bijection
through `wrap_labels`, and run the two asserts.  The source inserts the
wrapped option object into `self.options` first and then mutates it in
place; the pure model inserts its final value. -/
def create_wrapper_one (gen : Nat → String) (game_name : String)
    (extraOptions : List (String × ApOption)) (triggers : List Trigger)
    (real_to_wrapped : List (String × String)) (orig_name : String)
    (orig_option : ApOption) (pos : Nat) :
    Except PyErr (List (String × ApOption) × List Trigger × List (String × String) × Nat) := do
  let (wrapped_name, pos1) ← generate_unique_name gen (dkeys extraOptions) pos
  let (_, w, nwn, trigs, pos2) ←
    wrap_labels gen game_name orig_name wrapped_name orig_option.weights [] [] [] triggers pos1
  if w.length ≠ orig_option.weights.length then
    .error (.assertionError "len(wrapped_option.weights) == len(orig_option.weights)")
  else if w.isEmpty then
    .error (.assertionError "wrapped_option.weights != \x7b\x7d")
  else
    .ok (dset extraOptions wrapped_name (.wrapped w orig_option orig_name nwn),
         trigs, dset real_to_wrapped orig_name wrapped_name, pos2)

/-- The loop of `ContextExtra.create_wrapper_options` (`ap-obfuscate.py`,
lines 116-152) over the original options: non-`WeightedOption`s are
skipped, each `WeightedOption` is wrapped by `create_wrapper_one`. -/
def create_wrapper_options_go (gen : Nat → String) (game_name : String) :
    List (String × ApOption) → List (String × ApOption) → List Trigger →
    List (String × String) → Nat →
    Except PyErr (List Trigger × List (String × String) × List (String × ApOption) × Nat)
  | [], extraOptions, triggers, real_to_wrapped, pos =>
    .ok (triggers, real_to_wrapped, extraOptions, pos)
  | (orig_name, orig_option) :: rest, extraOptions, triggers, real_to_wrapped, pos =>
    if orig_option.isWeightedOption then do
      let (extraOptions', triggers', real_to_wrapped', pos') ←
        create_wrapper_one gen game_name extraOptions triggers real_to_wrapped
          orig_name orig_option pos
      create_wrapper_options_go gen game_name rest extraOptions' triggers' real_to_wrapped' pos'
    else
      create_wrapper_options_go gen game_name rest extraOptions triggers real_to_wrapped pos

/-- Model of the `ContextExtra` dataclass (`ap-obfuscate.py`, lines
100-105). -/
structure ContextExtra where
  game_name : String
  options : List (String × ApOption)
  triggers : List Trigger
deriving DecidableEq, Repr

/-- Model of `ContextExtra.create_wrapper_options`: run the wrapping loop
starting from this context's accumulated options, returning the new
triggers, the original-to-wrapper name map, and the updated context. -/
def ContextExtra.create_wrapper_options (gen : Nat → String)
    (self : ContextExtra) (orig_options : List (String × ApOption)) (pos : Nat) :
    Except PyErr (List Trigger × List (String × String) × ContextExtra × Nat) := do
  let (triggers, real_to_wrapped, extraOptions', pos') ←
    create_wrapper_options_go gen self.game_name orig_options self.options [] [] pos
  .ok (triggers, real_to_wrapped, { self with options := extraOptions' }, pos')

/-- The label-renaming loop of `obfuscate_game_wrap` (`ap-obfuscate.py`,
lines 248-251): iterate over a snapshot of the override weights; every
entry whose key is a string in the label bijection is deleted and
re-inserted under the wrapper label (Python membership of a non-string
key in a `dict[str, str]` is false, so such keys are left alone). -/
def rename_weights (new_weight_names : List (String × String)) :
    List (Value × Value) → ValueMap → ValueMap
  | [], cur => cur
  | (weight_name, weight) :: rest, cur =>
    match weight_name with
    | .str s =>
      match dlookup new_weight_names s with
      | some new_name =>
        rename_weights new_weight_names rest ((cur.del (.str s)).set (.str new_name) weight)
      | none => rename_weights new_weight_names rest cur
    | _ => rename_weights new_weight_names rest cur

/-- The bare-label normalization of `obfuscate_game_wrap` (`ap-obfuscate.py`,
lines 238-240): an override given as a mapping keeps its entries; any
other shape (a bare label) becomes the single-entry weight-1 mapping
`{label: 1}`. -/
def normalize_weights_value : Value → ValueMap
  | .dict es => es
  | other => .cons other (.int 1) .nil

/-- The override-option loop of `obfuscate_game_wrap` (`ap-obfuscate.py`,
lines 231-251): iterate over a snapshot of the trigger's per-game
override map; every entry whose key names a just-wrapped option is
normalized (a bare label becomes `{label: 1}`), moved under the wrapper
option name, and has its labels renamed through that wrapper's label
bijection.  Looking up the wrapped option cannot fail in an engine run
(`KeyError` otherwise), and it is asserted to be a
`WrappedWeightedOption`. -/
def rewrite_trigger_options (game_name : String) (r2w : List (String × String))
    (extraOptions : List (String × ApOption)) :
    List (Value × Value) → ValueMap → Except PyErr ValueMap
  | [], cur => .ok cur
  | (option_name, weights) :: rest, cur =>
    match option_name with
    | .str s =>
      match dlookup r2w s with
      | none => rewrite_trigger_options game_name r2w extraOptions rest cur
      | some wrapped_option_name =>
        let wvm : ValueMap := normalize_weights_value weights
        match dlookup extraOptions wrapped_option_name with
        | none => .error (.keyError wrapped_option_name)
        | some (.wrapped _ _ _ nwn) =>
          let wvm' := rename_weights nwn wvm.entries wvm
          rewrite_trigger_options game_name r2w extraOptions rest
            ((cur.del (.str s)).set (.str wrapped_option_name) (.dict wvm'))
        | some _ => .error (.assertionError "isinstance(wrapped_option, WrappedWeightedOption)")
    | _ => rewrite_trigger_options game_name r2w extraOptions rest cur

/-- The per-trigger rewrite of `obfuscate_game_wrap` on the first pass
(`ap-obfuscate.py`, lines 216-251).  A trigger is ignored unless its
`option_category` equals the game name and its `option_name` was just
wrapped.  Otherwise the option name is replaced by the wrapper name, the
result label is translated through the wrapper's label bijection (a
`KeyError` if it is not one of the original labels; an unhashable result
would raise a different error kind in Python, equally fatal), and the
per-game override map is rewritten.  A trigger whose `options` attribute
is not a dict would fail at `.get` (`AttributeError`); a per-game entry
that is not a dict would fail at `.items()`. -/
def rewrite_trigger (game_name : String) (r2w : List (String × String))
    (extraOptions : List (String × ApOption)) (trigger : Trigger) :
    Except PyErr Trigger :=
  if trigger.option_category ≠ game_name then .ok trigger
  else
    match dlookup r2w trigger.option_name with
    | none => .ok trigger
    | some new_option_name =>
      match dlookup extraOptions new_option_name with
      | none => .error (.keyError new_option_name)
      | some (.wrapped _ _ _ new_weight_names) =>
        match trigger.option_result with
        | .str res =>
          match dlookup new_weight_names res with
          | none => .error (.keyError res)
          | some new_result =>
            match trigger.options with
            | .dict es =>
              match es.lookup (.str game_name) with
              | some (.dict inner) => do
                let inner' ← rewrite_trigger_options game_name r2w extraOptions inner.entries inner
                .ok { trigger with
                      option_name := new_option_name
                      option_result := .str new_result
                      options := .dict (es.set (.str game_name) (.dict inner')) }
              | some _ => .error (.attributeError "'...' object has no attribute 'items'")
              | none =>
                .ok { trigger with
                      option_name := new_option_name
                      option_result := .str new_result }
            | _ => .error (.attributeError "'...' object has no attribute 'get'")
        | other => .error (.keyError (pyStr other))
      | some _ => .error (.assertionError "isinstance(wrapped_option, WrappedWeightedOption)")

/-- The first-pass loop over a game's pre-existing triggers, rewriting
each in place. -/
def rewrite_triggers (game_name : String) (r2w : List (String × String))
    (extraOptions : List (String × ApOption)) :
    List Trigger → Except PyErr (List Trigger)
  | [] => .ok []
  | t :: ts => do
    let t' ← rewrite_trigger game_name r2w extraOptions t
    let ts' ← rewrite_triggers game_name r2w extraOptions ts
    .ok (t' :: ts')

/-- The replacement loop of `obfuscate_game_wrap` (`ap-obfuscate.py`,
lines 192-194): for every wrapped option, delete the original entry from
the game's options and insert the wrapper from the per-game context. -/
def replace_wrapped_options :
    List (String × String) → List (String × ApOption) →
    List (String × ApOption) → Except PyErr (List (String × ApOption))
  | [], opts, _ => .ok opts
  | (real_name, wrapped_name) :: rest, opts, extraOptions =>
    match dlookup extraOptions wrapped_name with
    | none => .error (.keyError wrapped_name)
    | some o => replace_wrapped_options rest (dset (ddel opts real_name) wrapped_name o) extraOptions

/-- Model of `Context.obfuscate_game_wrap` (`ap-obfuscate.py`, lines
183-255): wrap every `WeightedOption` of the game, replace the original
options with the wrappers, then — on the first pass — rewrite the
pre-existing triggers in place and append the new wrapper triggers at the
end, and — on later passes — prepend the new wrapper triggers through
`list_extend_beginning`. -/
def obfuscate_game_wrap (gen : Nat → String) (game_name : String)
    (first_time : Bool) (root : Root)
    (extra_games : List (String × ContextExtra)) (pos : Nat) :
    Except PyErr (Root × List (String × ContextExtra) × Nat) := do
  let game ← root.game_by_name game_name
  match dlookup extra_games game_name with
  | none => .error (.keyError game_name)
  | some extra => do
    let (wrapped_triggers, real_name_to_wrapped, extra', pos') ←
      extra.create_wrapper_options gen
        (game.options.filter (fun kv => kv.2.isWeightedOption)) pos
    let options' ← replace_wrapped_options real_name_to_wrapped game.options extra'.options
    let triggers' ←
      if first_time then do
        let rewritten ← rewrite_triggers game_name real_name_to_wrapped extra'.options game.triggers
        .ok (rewritten ++ wrapped_triggers)
      else
        .ok (list_extend_beginning game.triggers wrapped_triggers)
    let game' := { game with options := options', triggers := triggers' }
    .ok ({ root with games := replace_first_game root.games game_name game' },
         dset extra_games game_name extra', pos')

/-- Model of the `Context` class state (`ap-obfuscate.py`, lines
155-173).  The oracle position is threaded separately so the state is
first-order data. -/
structure Context where
  orig_root : Root
  root : Root
  extra_root : ContextExtra
  extra_games : List (String × ContextExtra)
  iteration : Nat
deriving DecidableEq, Repr

/-- The constructor loop building `extra_games` from the games of the
working copy. -/
def build_extra_games : List Game → List (String × ContextExtra) → List (String × ContextExtra)
  | [], acc => acc
  | g :: tl, acc => build_extra_games tl (dset acc g.name ⟨g.name, [], []⟩)

/-- Model of `Context.__init__`: retain the parsed root unchanged and work
on a deep copy.  `copy.deepcopy` of the (pure) document tree is the tree
itself in a value semantics; the point of the discipline — that later
mutations touch only the working copy — is captured by `obfuscate` only
ever rebuilding the `root` field. -/
def Context.init (root : Root) : Context :=
  { orig_root := root
    root := root
    extra_root := ⟨"", [], []⟩
    extra_games := build_extra_games root.games []
    iteration := 0 }

/-- Model of `Context.obfuscate_game`: one game, `first_time` iff this is
iteration 0. -/
def obfuscate_game (gen : Nat → String) (game_name : String) (iteration : Nat)
    (root : Root) (extra_games : List (String × ContextExtra)) (pos : Nat) :
    Except PyErr (Root × List (String × ContextExtra) × Nat) :=
  obfuscate_game_wrap gen game_name (iteration == 0) root extra_games pos

/-- The loop of `Context.obfuscate` over `extra_games.keys()` (the key
list is snapshotted; `obfuscate_game_wrap` never adds or removes games). -/
def obfuscate_games_loop (gen : Nat → String) (iteration : Nat) :
    List String → Root → List (String × ContextExtra) → Nat →
    Except PyErr (Root × List (String × ContextExtra) × Nat)
  | [], root, extra_games, pos => .ok (root, extra_games, pos)
  | game_name :: rest, root, extra_games, pos => do
    let (root', extra_games', pos') ← obfuscate_game gen game_name iteration root extra_games pos
    obfuscate_games_loop gen iteration rest root' extra_games' pos'

/-- Model of `Context.obfuscate` (`ap-obfuscate.py`, lines 175-178): one
pass over every game, then increment the iteration counter. -/
def Context.obfuscate (gen : Nat → String) (ctx : Context) (pos : Nat) :
    Except PyErr (Context × Nat) := do
  let (root', extra_games', pos') ←
    obfuscate_games_loop gen ctx.iteration (dkeys ctx.extra_games) ctx.root ctx.extra_games pos
  .ok ({ ctx with
         root := root'
         extra_games := extra_games'
         iteration := ctx.iteration + 1 }, pos')

/-- `n` successive obfuscation passes (`to_obfuscated_ap_yaml` runs
exactly two). -/
def Context.obfuscateN (gen : Nat → String) : Nat → Context → Nat →
    Except PyErr (Context × Nat)
  | 0, ctx, pos => .ok (ctx, pos)
  | n + 1, ctx, pos => do
    let (ctx', pos') ← Context.obfuscate gen ctx pos
    Context.obfuscateN gen n ctx' pos'

/-- The engine entry point of `to_obfuscated_ap_yaml` restricted to the
transformation: build the context from the parsed root and run the given
number of passes. -/
def run_obfuscation (gen : Nat → String) (root : Root) (passes : Nat) :
    Except PyErr (Context × Nat) :=
  Context.obfuscateN gen passes (Context.init root) 0

/-! ### Claim-level predicates

The spec's resolution invariant, formalised over the model: a trigger of a
game "resolves" when its `option_name` and every option name used as a key
inside its per-game override map name options still present in the game's
option mapping. -/

/-- The option names used as keys inside a trigger's override map for the
given game (empty when the trigger has no such map). -/
def trigger_override_keys (game_name : String) (t : Trigger) : List Value :=
  match t.options with
  | .dict es =>
    match es.lookup (.str game_name) with
    | some (.dict inner) => inner.keys
    | _ => []
  | _ => []

/-- One trigger of game `g` resolves: its `option_name` and all of its
override keys for `g` name options present in `g`'s option mapping. -/
def trigger_resolves (g : Game) (t : Trigger) : Bool :=
  (dlookup g.options t.option_name).isSome &&
  (trigger_override_keys g.name t).all
    (fun k => match k with | .str s => (dlookup g.options s).isSome | _ => false)

/-- Every trigger of the game resolves. -/
def game_triggers_resolve (g : Game) : Bool :=
  g.triggers.all (trigger_resolves g)

/-! ### Concrete fixtures for witnesses and counterexamples -/

/-- An oracle producing pairwise-distinct names `w0`, `w1`, … that avoid
every option and label name used in the fixtures. -/
def genW (i : Nat) : String := "w" ++ toString i

/-- An oracle behaviour whose first draw collides with the option name
`b` used in `exRootB`, and is fresh afterwards. -/
def genBad (i : Nat) : String := if i = 0 then "b" else "w" ++ toString i

/-- An oracle behaviour that always draws the same name `a`. -/
def genConst (_ : Nat) : String := "a"

/-- The spec's end-to-end example: one game `g` with the single weighted
option `a ↦ {x: 1}` and no triggers. -/
def exGame : Game :=
  { name := "g", triggers := [], options := [("a", .weighted [("x", .int 1)])] }

/-- A parsed root holding just `exGame`. -/
def exRoot : Root :=
  { name := .str "player"
    description := .str "desc"
    requires := ⟨.str "0.6.1"⟩
    games := [exGame]
    game_weights := .cons (.str "g") (.int 1) .nil
    triggers := [] }

/-- The per-game scratch contexts built for `exRoot`. -/
def exExtras : List (String × ContextExtra) :=
  build_extra_games exRoot.games []

/-- The wrapper option generated for `exGame`'s option `a` under `genW`. -/
def exWrapped : ApOption :=
  .wrapped [("w1", .int 1)] (.weighted [("x", .int 1)]) "a" [("x", "w1")]

/-- The per-game context after wrapping `exGame` under `genW`. -/
def exExtra2 : ContextExtra := ⟨"g", [("w0", exWrapped)], []⟩

/-- The wrapper trigger generated for `exGame`'s option `a` under
`genW`. -/
def exWT0 : Trigger :=
  { option_category := "g", option_name := "w0", option_result := .str "w1",
    options := .dict (.cons (.str "g")
      (.dict (.cons (.str "a") (.str "x") .nil)) .nil) }

/-- The wrapper trigger list generated for `exGame` under `genW`. -/
def exWT : List Trigger := [exWT0]

/-- The context resulting from the two-pass engine run on `exRoot` under
`genW` (the error fallback is never taken: see `C9_frame_witness`). -/
def exRun2 : Context :=
  match run_obfuscation genW exRoot 2 with
  | .ok (c, _) => c
  | .error _ => Context.init exRoot

/-- A game with two weighted options `a` and `b`, used to exhibit a
wrapper-name collision with a pre-existing option name. -/
def exGameB : Game :=
  { name := "g", triggers := []
    options := [("a", .weighted [("x", .int 1)]), ("b", .weighted [("y", .int 1)])] }

/-- A root holding just `exGameB`. -/
def exRootB : Root :=
  { name := .str "player"
    description := .str "desc"
    requires := ⟨.str "0.6.1"⟩
    games := [exGameB]
    game_weights := .cons (.str "g") (.int 1) .nil
    triggers := [] }

/-- A pre-existing trigger owned by game `g` whose `option_category` is
empty (root scope), whose `option_name` names the wrapped option `a` and
whose `option_result` is `a`'s original label `x`. -/
def exTrigRootCat : Trigger :=
  { option_category := "", option_name := "a", option_result := .str "x",
    options := .dict (.cons (.str "g")
      (.dict (.cons (.str "a") (.str "x") .nil)) .nil) }

/-- `exGame` with the root-category trigger `exTrigRootCat` attached. -/
def exGameT : Game :=
  { name := "g", triggers := [exTrigRootCat]
    options := [("a", .weighted [("x", .int 1)])] }

/-- A root holding just `exGameT`. -/
def exRootT : Root :=
  { name := .str "player"
    description := .str "desc"
    requires := ⟨.str "0.6.1"⟩
    games := [exGameT]
    game_weights := .cons (.str "g") (.int 1) .nil
    triggers := [] }

/-- Specification-level description of the triggers emitted by
`wrap_labels`: one per original label, pairing the original labels with
the generated wrapper labels in order — each trigger fires on the wrapper
label and overrides the original option to the corresponding original
label in the game's scope. -/
def mk_wrapper_triggers (game_name orig_name wrapped_name : String) :
    List (String × Value) → List String → List Trigger
  | (weight_name, _) :: ws, l :: ls =>
    { option_category := game_name, option_name := wrapped_name,
      option_result := .str l,
      options := .dict (.cons (.str game_name)
        (.dict (.cons (.str orig_name) (.str weight_name) .nil)) .nil) } ::
      mk_wrapper_triggers game_name orig_name wrapped_name ws ls
  | _, _ => []

/-- The wrapper-option names a wrapping step added to a per-game context:
the keys of the updated context's option map beyond the retained
prefix. -/
def new_option_names (extra extra2 : ContextExtra) : List String :=
  (dkeys extra2.options).drop (dkeys extra.options).length

/-- Statement abbreviation: the game rewritten with new options and a new
trigger list. -/
def wrapped_game (game : Game) (opts' : List (String × ApOption))
    (triggers' : List Trigger) : Game :=
  { game with options := opts', triggers := triggers' }

/-- Statement abbreviation: the root with the named game replaced. -/
def with_game (root : Root) (game_name : String) (g : Game) : Root :=
  { root with games := replace_first_game root.games game_name g }

/-- A pre-existing trigger owned by game `g` with `option_category` equal
to the game name, `option_name` the wrapped option `a` and
`option_result` the original label `x` — the fully affected case. -/
def exTrigGCat : Trigger :=
  { option_category := "g", option_name := "a", option_result := .str "x",
    options := .dict (.cons (.str "g")
      (.dict (.cons (.str "a") (.str "x") .nil)) .nil) }

/-- The rewritten per-game override map of `exTrigGCat`: the wrapped key
`a` moved under the wrapper name `w0` with its bare label normalized to
`{x: 1}` and renamed to `{w1: 1}`. -/
def exInner' : ValueMap :=
  .cons (.str "w0") (.dict (.cons (.str "w1") (.int 1) .nil)) .nil

/-! ## Theorems -/

/-! ### Ordered-association-list (Python dict) lemmas -/

theorem dkeys_nil {α : Type} : dkeys ([] : List (String × α)) = [] := rfl

theorem dkeys_cons {α : Type} (p : String × α) (tl : List (String × α)) :
    dkeys (p :: tl) = p.1 :: dkeys tl := rfl

theorem dlookup_cons {α : Type} (pk : String) (pv : α)
    (tl : List (String × α)) (k : String) :
    dlookup ((pk, pv) :: tl) k = if pk = k then some pv else dlookup tl k := rfl

theorem dkeys_append {α : Type} (d1 d2 : List (String × α)) :
    dkeys (d1 ++ d2) = dkeys d1 ++ dkeys d2 := by
  simp [dkeys]

theorem dset_eq_append {α : Type} :
    ∀ (d : List (String × α)) (k : String) (v : α),
      k ∉ dkeys d → dset d k v = d ++ [(k, v)] := by
  intro d
  induction d with
  | nil => intro k v _; rfl
  | cons p tl ih =>
    intro k v hk
    obtain ⟨pk, pv⟩ := p
    rw [dkeys_cons, List.mem_cons] at hk
    push_neg at hk
    have hne : pk ≠ k := Ne.symm hk.1
    show (if pk = k then (pk, v) :: tl else (pk, pv) :: dset tl k v) = _
    rw [if_neg hne, ih k v hk.2]
    rfl

theorem mem_dkeys_dset {α : Type} :
    ∀ (d : List (String × α)) (k : String) (v : α) (k' : String),
      k' ∈ dkeys (dset d k v) ↔ k' ∈ dkeys d ∨ k' = k := by
  intro d
  induction d with
  | nil => intro k v k'; simp [dset, dkeys]
  | cons p tl ih =>
    intro k v k'
    obtain ⟨pk, pv⟩ := p
    show k' ∈ dkeys (if pk = k then (pk, v) :: tl else (pk, pv) :: dset tl k v) ↔ _
    by_cases h : pk = k
    · subst h
      rw [if_pos rfl, dkeys_cons, dkeys_cons]
      simp only [List.mem_cons]
      tauto
    · rw [if_neg h, dkeys_cons, dkeys_cons]
      simp only [List.mem_cons]
      rw [ih k v k']
      tauto

theorem dkeys_dset_nodup {α : Type} :
    ∀ (d : List (String × α)) (k : String) (v : α),
      (dkeys d).Nodup → (dkeys (dset d k v)).Nodup := by
  intro d
  induction d with
  | nil => intro k v _; simp [dset, dkeys]
  | cons p tl ih =>
    intro k v hd
    obtain ⟨pk, pv⟩ := p
    rw [dkeys_cons, List.nodup_cons] at hd
    show (dkeys (if pk = k then (pk, v) :: tl else (pk, pv) :: dset tl k v)).Nodup
    by_cases h : pk = k
    · subst h
      rw [if_pos rfl, dkeys_cons, List.nodup_cons]
      exact hd
    · rw [if_neg h, dkeys_cons, List.nodup_cons]
      refine ⟨?_, ih k v hd.2⟩
      intro hmem
      rcases (mem_dkeys_dset tl k v pk).mp hmem with hmem | rfl
      · exact hd.1 hmem
      · exact h rfl

theorem mem_dkeys_ddel_self {α : Type} :
    ∀ (d : List (String × α)) (k : String),
      (dkeys d).Nodup → k ∉ dkeys (ddel d k) := by
  intro d
  induction d with
  | nil => intro k _; simp [ddel, dkeys]
  | cons p tl ih =>
    intro k hd
    obtain ⟨pk, pv⟩ := p
    rw [dkeys_cons, List.nodup_cons] at hd
    show k ∉ dkeys (if pk = k then tl else (pk, pv) :: ddel tl k)
    by_cases h : pk = k
    · subst h
      rw [if_pos rfl]
      exact hd.1
    · rw [if_neg h, dkeys_cons, List.mem_cons]
      rintro (rfl | hmem)
      · exact h rfl
      · exact ih k hd.2 hmem

theorem mem_dkeys_ddel_ne {α : Type} :
    ∀ (d : List (String × α)) (k k' : String), k' ≠ k →
      (k' ∈ dkeys (ddel d k) ↔ k' ∈ dkeys d) := by
  intro d
  induction d with
  | nil => intro k k' _; simp [ddel]
  | cons p tl ih =>
    intro k k' hne
    obtain ⟨pk, pv⟩ := p
    show k' ∈ dkeys (if pk = k then tl else (pk, pv) :: ddel tl k) ↔ _
    by_cases h : pk = k
    · subst h
      rw [if_pos rfl, dkeys_cons, List.mem_cons]
      constructor
      · exact Or.inr
      · rintro (h1 | hm)
        · exact absurd h1 hne
        · exact hm
    · rw [if_neg h, dkeys_cons, dkeys_cons, List.mem_cons, List.mem_cons,
        ih k k' hne]

theorem dkeys_ddel_nodup {α : Type} :
    ∀ (d : List (String × α)) (k : String),
      (dkeys d).Nodup → (dkeys (ddel d k)).Nodup := by
  intro d
  induction d with
  | nil => intro k _; simp [ddel, dkeys]
  | cons p tl ih =>
    intro k hd
    obtain ⟨pk, pv⟩ := p
    rw [dkeys_cons, List.nodup_cons] at hd
    show (dkeys (if pk = k then tl else (pk, pv) :: ddel tl k)).Nodup
    by_cases h : pk = k
    · subst h
      rw [if_pos rfl]
      exact hd.2
    · rw [if_neg h, dkeys_cons, List.nodup_cons]
      refine ⟨?_, ih k hd.2⟩
      intro hmem
      exact hd.1 ((mem_dkeys_ddel_ne tl k pk h).mp hmem)

theorem dlookup_isSome_iff {α : Type} :
    ∀ (d : List (String × α)) (k : String),
      (dlookup d k).isSome = true ↔ k ∈ dkeys d := by
  intro d
  induction d with
  | nil => intro k; simp [dlookup, dkeys]
  | cons p tl ih =>
    intro k
    obtain ⟨pk, pv⟩ := p
    rw [dlookup_cons, dkeys_cons, List.mem_cons]
    by_cases h : pk = k
    · subst h
      simp
    · rw [if_neg h, ih k]
      constructor
      · exact Or.inr
      · rintro (h1 | hm)
        · exact absurd h1.symm h
        · exact hm

theorem dlookup_eq_none_iff {α : Type} (d : List (String × α)) (k : String) :
    dlookup d k = none ↔ k ∉ dkeys d := by
  rw [← dlookup_isSome_iff]
  cases dlookup d k <;> simp

theorem dlookup_mem {α : Type} :
    ∀ (d : List (String × α)) (k : String) (v : α),
      dlookup d k = some v → (k, v) ∈ d := by
  intro d
  induction d with
  | nil => intro k v h; cases h
  | cons p tl ih =>
    intro k v h
    obtain ⟨pk, pv⟩ := p
    rw [dlookup_cons] at h
    by_cases heq : pk = k
    · subst heq
      rw [if_pos rfl] at h
      cases h
      exact List.mem_cons_self _ _
    · rw [if_neg heq] at h
      exact List.mem_cons_of_mem _ (ih k v h)

theorem dlookup_append_left {α : Type} :
    ∀ (d1 d2 : List (String × α)) (k : String) (v : α),
      dlookup d1 k = some v → dlookup (d1 ++ d2) k = some v := by
  intro d1
  induction d1 with
  | nil => intro d2 k v h; cases h
  | cons p tl ih =>
    intro d2 k v h
    obtain ⟨pk, pv⟩ := p
    rw [dlookup_cons] at h
    rw [List.cons_append, dlookup_cons]
    by_cases heq : pk = k
    · rwa [if_pos heq] at h ⊢
    · rw [if_neg heq] at h ⊢
      exact ih d2 k v h

theorem dlookup_append_right {α : Type} :
    ∀ (d1 d2 : List (String × α)) (k : String),
      k ∉ dkeys d1 → dlookup (d1 ++ d2) k = dlookup d2 k := by
  intro d1
  induction d1 with
  | nil => intro d2 k _; rfl
  | cons p tl ih =>
    intro d2 k hk
    obtain ⟨pk, pv⟩ := p
    rw [dkeys_cons, List.mem_cons] at hk
    push_neg at hk
    rw [List.cons_append, dlookup_cons, if_neg (Ne.symm hk.1)]
    exact ih d2 k hk.2

theorem mem_dkeys_of_dlookup {α : Type} (d : List (String × α)) (k : String)
    (v : α) (h : dlookup d k = some v) : k ∈ dkeys d := by
  rw [← dlookup_isSome_iff, h]; rfl

/-! ### Name generator lemmas -/

theorem generate_unique_name_go_ok_not_mem (gen : Nat → String)
    (inside : List String) :
    ∀ (fuel pos : Nat) (name : String) (pos' : Nat),
      generate_unique_name_go gen inside fuel pos = .ok (name, pos') →
      name ∉ inside := by
  intro fuel
  induction fuel with
  | zero => intro pos name pos' h; simp [generate_unique_name_go] at h
  | succ n ih =>
    intro pos name pos' h
    simp only [generate_unique_name_go, generate_new_name] at h
    by_cases hm : gen pos ∈ inside
    · rw [if_pos hm] at h
      exact ih _ _ _ h
    · rw [if_neg hm] at h
      obtain ⟨rfl, -⟩ : gen pos = name ∧ pos + 1 = pos' := by
        cases h; exact ⟨rfl, rfl⟩
      exact hm

theorem generate_unique_name_go_ok_stream (gen : Nat → String)
    (inside : List String) :
    ∀ (fuel pos : Nat) (name : String) (pos' : Nat),
      generate_unique_name_go gen inside fuel pos = .ok (name, pos') →
      pos < pos' ∧ name = gen (pos' - 1) := by
  intro fuel
  induction fuel with
  | zero => intro pos name pos' h; simp [generate_unique_name_go] at h
  | succ n ih =>
    intro pos name pos' h
    simp only [generate_unique_name_go, generate_new_name] at h
    by_cases hm : gen pos ∈ inside
    · rw [if_pos hm] at h
      obtain ⟨h1, h2⟩ := ih _ _ _ h
      exact ⟨by omega, h2⟩
    · rw [if_neg hm] at h
      obtain ⟨rfl, rfl⟩ : gen pos = name ∧ pos + 1 = pos' := by
        cases h; exact ⟨rfl, rfl⟩
      exact ⟨by omega, by simp⟩

theorem generate_unique_name_go_error_iff (gen : Nat → String)
    (inside : List String) :
    ∀ (fuel pos : Nat),
      (generate_unique_name_go gen inside fuel pos =
        .error (.exception "Unable to generate unique name")) ↔
      ∀ i < fuel, gen (pos + i) ∈ inside := by
  intro fuel
  induction fuel with
  | zero => intro pos; simp [generate_unique_name_go]
  | succ n ih =>
    intro pos
    simp only [generate_unique_name_go, generate_new_name]
    by_cases hm : gen pos ∈ inside
    · rw [if_pos hm, ih]
      constructor
      · intro hl i hi
        match i, hi with
        | 0, _ => simpa using hm
        | j + 1, hj =>
          have := hl j (by omega)
          have harith : pos + 1 + j = pos + (j + 1) := by omega
          rwa [harith] at this
      · intro hr i hi
        have := hr (i + 1) (by omega)
        have harith : pos + (i + 1) = pos + 1 + i := by omega
        rwa [harith] at this
    · rw [if_neg hm]
      constructor
      · intro h; cases h
      · intro hr
        exact absurd (by simpa using hr 0 (by omega)) hm

theorem generate_unique_name_ok_not_mem (gen : Nat → String)
    (inside : List String) (pos : Nat) (name : String) (pos' : Nat)
    (h : generate_unique_name gen inside pos = .ok (name, pos')) :
    name ∉ inside :=
  generate_unique_name_go_ok_not_mem gen inside 100000 pos name pos' h

theorem generate_unique_name_ok_stream (gen : Nat → String)
    (inside : List String) (pos : Nat) (name : String) (pos' : Nat)
    (h : generate_unique_name gen inside pos = .ok (name, pos')) :
    pos < pos' ∧ name = gen (pos' - 1) :=
  generate_unique_name_go_ok_stream gen inside 100000 pos name pos' h

theorem generate_multiple_unique_names_go_spec (gen : Nat → String) :
    ∀ (count : Nat) (names : List String) (pos : Nat)
      (names' : List String) (pos' : Nat),
      generate_multiple_unique_names_go gen names count pos = .ok (names', pos') →
      names.Nodup →
      names'.Nodup ∧ names'.length = names.length + count := by
  intro count
  induction count with
  | zero =>
    intro names pos names' pos' h hd
    obtain ⟨rfl, rfl⟩ : names = names' ∧ pos = pos' := by
      cases h; exact ⟨rfl, rfl⟩
    exact ⟨hd, by omega⟩
  | succ n ih =>
    intro names pos names' pos' h hd
    simp only [generate_multiple_unique_names_go] at h
    cases hg : generate_unique_name gen names pos with
    | error e => rw [hg] at h; cases h
    | ok val =>
      obtain ⟨name, pos1⟩ := val
      rw [hg] at h
      simp only [bind, Except.bind] at h
      have hmem : name ∉ names := generate_unique_name_ok_not_mem gen names pos name pos1 hg
      have hd' : (names ++ [name]).Nodup := by
        refine List.Nodup.append hd (List.nodup_singleton name) ?_
        intro a ha hb
        rw [List.mem_singleton] at hb
        exact hmem (hb ▸ ha)
      obtain ⟨h1, h2⟩ := ih (names ++ [name]) pos1 names' pos' h hd'
      refine ⟨h1, ?_⟩
      simp at h2
      omega

/-- C6: every name returned by `generate_unique_name` is absent from its
exclusion set; the names returned by `generate_multiple_unique_names`
(successive calls threading one accumulated exclusion set) are pairwise
distinct; and `generate_unique_name` raises its fatal error exactly when
all 100000 attempts of its retry budget draw names already in the
exclusion set. -/
theorem C6_unique_name_generation (gen : Nat → String)
    (inside : List String) (pos : Nat) :
    (∀ (name : String) (pos' : Nat),
      generate_unique_name gen inside pos = .ok (name, pos') → name ∉ inside) ∧
    (∀ (count : Nat) (names : List String) (pos' : Nat),
      generate_multiple_unique_names gen count pos = .ok (names, pos') →
      names.Nodup ∧ names.length = count) ∧
    ((generate_unique_name gen inside pos =
        .error (.exception "Unable to generate unique name")) ↔
      ∀ i < 100000, gen (pos + i) ∈ inside) := by
  refine ⟨?_, ?_, ?_⟩
  · intro name pos' h
    exact generate_unique_name_ok_not_mem gen inside pos name pos' h
  · intro count names pos' h
    have := generate_multiple_unique_names_go_spec gen count [] pos names pos' h
      List.nodup_nil
    simpa using this
  · exact generate_unique_name_go_error_iff gen inside 100000 pos

/-- Witness for `C6_unique_name_generation` at concrete inputs: a fresh
draw avoids the exclusion set `["a"]`, two successive draws are distinct,
and the constant oracle `genConst` exhausts the budget. -/
theorem C6_unique_name_generation_witness :
    ("w0" ∉ ["a"]) ∧
    (["w0", "w1"].Nodup ∧ ["w0", "w1"].length = 2) ∧
    (generate_unique_name genConst ["a"] 0 =
      .error (.exception "Unable to generate unique name")) := by
  refine ⟨?_, ?_, ?_⟩
  · exact (C6_unique_name_generation genW ["a"] 0).1 "w0" 1 (by rfl)
  · exact (C6_unique_name_generation genW ["a"] 0).2.1 2 ["w0", "w1"] 2 (by rfl)
  · exact (C6_unique_name_generation genConst ["a"] 0).2.2.mpr
      (fun i _ => by simp [genConst])

/-! ### C7: WeightedOption serialization -/

/-- C7: serializing a `WeightedOption` returns the bare label when there
is exactly one label, the label-to-weight mapping when there are two or
more, and fails exactly when there are zero labels. -/
theorem C7_weighted_option_output (weights : List (String × Value)) :
    (∀ (k : String) (v : Value),
      weights = [(k, v)] → WeightedOption.output weights = .ok (.str k)) ∧
    (2 ≤ weights.length →
      WeightedOption.output weights = .ok (.dict (weights_to_value weights))) ∧
    ((WeightedOption.output weights).isOk = false ↔ weights = []) := by
  refine ⟨?_, ?_, ?_⟩
  · rintro k v rfl; rfl
  · intro h
    match weights, h with
    | a :: b :: rest, _ => rfl
  · match weights with
    | [] => simp [WeightedOption.output, Except.isOk, Except.toBool]
    | [(k, v)] => simp [WeightedOption.output, Except.isOk, Except.toBool]
    | a :: b :: rest => simp [WeightedOption.output, Except.isOk, Except.toBool]

/-- Witness for `C7_weighted_option_output`: the one-label, two-label and
zero-label cases at concrete inputs. -/
theorem C7_weighted_option_output_witness :
    WeightedOption.output [("x", .int 1)] = .ok (.str "x") ∧
    WeightedOption.output [("x", .int 1), ("y", .int 2)] =
      .ok (.dict (weights_to_value [("x", .int 1), ("y", .int 2)])) ∧
    (WeightedOption.output ([] : List (String × Value))).isOk = false := by
  refine ⟨?_, ?_, ?_⟩
  · exact (C7_weighted_option_output [("x", .int 1)]).1 "x" (.int 1) rfl
  · exact (C7_weighted_option_output [("x", .int 1), ("y", .int 2)]).2.1 (by simp)
  · exact (C7_weighted_option_output []).2.2.mpr rfl

/-! ### C8: escaped-encoder dict keys -/

/-- C8 counterexample: the claim states that a boolean key is an encoding
error, but Python's `isinstance(True, int)` is true, so a boolean key
renders through the integer branch — `do_dict_inner(True, 0)` returns
`"True: 0"` instead of raising. -/
theorem C8_bool_key_counterexample :
    do_dict_inner (.bool true) (.int 0) = .ok "True: 0" ∧
    encode (.dict (.cons (.bool true) (.int 0) .nil)) = .ok "\x7bTrue: 0\x7d" := by
  exact ⟨rfl, rfl⟩

/-- C8 amended: a string key renders quoted-and-escaped followed by `:`
and the encoded value with no space; an integer key as bare decimal
digits followed by `: `; a boolean key through the same integer branch as
`True`/`False` followed by `: ` (Python bools are ints); a null key as an
empty quoted string followed by `:`; float, list and dict keys are
encoding errors. -/
theorem C8_amended_dict_key_encoding (key value : Value) (sv : String)
    (hv : encode value = .ok sv) :
    (∀ s, key = .str s →
      do_dict_inner key value =
        .ok ("\"" ++ str_to_unicode_escapes s ++ "\":" ++ sv)) ∧
    (∀ n, key = .int n →
      do_dict_inner key value = .ok (toString n ++ ": " ++ sv)) ∧
    (∀ b, key = .bool b →
      do_dict_inner key value =
        .ok ((if b then "True" else "False") ++ ": " ++ sv)) ∧
    (key = .null → do_dict_inner key value = .ok ("\"\":" ++ sv)) ∧
    (∀ r, key = .float r → (do_dict_inner key value).isOk = false) ∧
    (∀ xs, key = .list xs → (do_dict_inner key value).isOk = false) ∧
    (∀ es, key = .dict es → (do_dict_inner key value).isOk = false) := by
  refine ⟨?_, ?_, ?_, ?_, ?_, ?_, ?_⟩
  · rintro s rfl; simp [do_dict_inner, dict_entry_render, hv]
  · rintro n rfl; simp [do_dict_inner, dict_entry_render, hv]
  · rintro b rfl; simp [do_dict_inner, dict_entry_render, hv]
  · rintro rfl; simp [do_dict_inner, dict_entry_render, hv]
  · rintro r rfl
    simp [do_dict_inner, dict_entry_render, Except.isOk, Except.toBool]
  · rintro xs rfl
    simp [do_dict_inner, dict_entry_render, Except.isOk, Except.toBool]
  · rintro es rfl
    simp [do_dict_inner, dict_entry_render, Except.isOk, Except.toBool]

/-- Witness for `C8_amended_dict_key_encoding`: the five key shapes at
the concrete value `1`. -/
theorem C8_amended_dict_key_encoding_witness :
    do_dict_inner (.str "k") (.int 1) =
      .ok ("\"" ++ str_to_unicode_escapes "k" ++ "\":1") ∧
    do_dict_inner (.int 7) (.int 1) = .ok ("7: 1") ∧
    do_dict_inner (.bool false) (.int 1) = .ok ("False: 1") ∧
    do_dict_inner .null (.int 1) = .ok ("\"\":1") ∧
    (do_dict_inner (.float "1.5") (.int 1)).isOk = false := by
  refine ⟨?_, ?_, ?_, ?_, ?_⟩
  · exact (C8_amended_dict_key_encoding (.str "k") (.int 1) "1" rfl).1 "k" rfl
  · exact (C8_amended_dict_key_encoding (.int 7) (.int 1) "1" rfl).2.1 7 rfl
  · have := (C8_amended_dict_key_encoding (.bool false) (.int 1) "1" rfl).2.2.1
      false rfl
    simpa using this
  · exact (C8_amended_dict_key_encoding .null (.int 1) "1" rfl).2.2.2.1 rfl
  · exact (C8_amended_dict_key_encoding (.float "1.5") (.int 1) "1" rfl).2.2.2.2.1
      "1.5" rfl

/-! ### C10: option-parse totality -/

/-- C10: `Option.parse` is total — denylisted names yield a
`CustomOption` with the raw value, mappings yield a `WeightedOption` with
stringified keys, bare strings and integers yield a single-label weight-1
`WeightedOption`, and the shapes `WeightedOption.parse` rejects (lists,
null, floats) fall back to `CustomOption`, so parsing never errors. -/
theorem C10_option_parse_total (option_name : String) (obj : Value) :
    (ApOption.parse option_name obj).isOk = true ∧
    (option_name ∈ GAME_SPECIAL_OPTIONS →
      ApOption.parse option_name obj = .ok (.custom obj)) ∧
    (option_name ∉ GAME_SPECIAL_OPTIONS →
      (∀ es, obj = .dict es →
        ApOption.parse option_name obj = .ok (.weighted (stringify_keys es []))) ∧
      (∀ s, obj = .str s →
        ApOption.parse option_name obj = .ok (.weighted [(s, .int 1)])) ∧
      (∀ n, obj = .int n →
        ApOption.parse option_name obj = .ok (.weighted [(toString n, .int 1)])) ∧
      (∀ xs, obj = .list xs → ApOption.parse option_name obj = .ok (.custom obj)) ∧
      (obj = .null → ApOption.parse option_name obj = .ok (.custom obj)) ∧
      (∀ r, obj = .float r → ApOption.parse option_name obj = .ok (.custom obj))) := by
  refine ⟨?_, ?_, ?_⟩
  · by_cases hs : option_name ∈ GAME_SPECIAL_OPTIONS
    · simp [ApOption.parse, hs, Except.isOk, Except.toBool]
    · cases obj <;>
        simp [ApOption.parse, WeightedOption.parse, hs, Except.isOk, Except.toBool]
  · intro hs; simp [ApOption.parse, hs]
  · intro hs
    refine ⟨?_, ?_, ?_, ?_, ?_, ?_⟩
    · rintro es rfl; simp [ApOption.parse, WeightedOption.parse, hs]
    · rintro s rfl; simp [ApOption.parse, WeightedOption.parse, hs]
    · rintro n rfl; simp [ApOption.parse, WeightedOption.parse, hs]
    · rintro xs rfl; simp [ApOption.parse, WeightedOption.parse, hs]
    · rintro rfl; simp [ApOption.parse, WeightedOption.parse, hs]
    · rintro r rfl; simp [ApOption.parse, WeightedOption.parse, hs]

/-- Witness for `C10_option_parse_total`: a denylisted name with a list
value parses as custom; an ordinary name parses a mapping as weighted and
null as custom. -/
theorem C10_option_parse_total_witness :
    ApOption.parse "local_items" (.list .nil) = .ok (.custom (.list .nil)) ∧
    ApOption.parse "progression_balancing" (.str "random") =
      .ok (.weighted [("random", .int 1)]) ∧
    ApOption.parse "progression_balancing" .null = .ok (.custom .null) := by
  refine ⟨?_, ?_, ?_⟩
  · exact (C10_option_parse_total "local_items" (.list .nil)).2.1 (by simp [GAME_SPECIAL_OPTIONS])
  · exact ((C10_option_parse_total "progression_balancing" (.str "random")).2.2
      (by simp [GAME_SPECIAL_OPTIONS])).2.1 "random" rfl
  · exact ((C10_option_parse_total "progression_balancing" .null).2.2
      (by simp [GAME_SPECIAL_OPTIONS])).2.2.2.2.1 rfl

/-! ### C9: the engine mutates only the working copy -/

theorem obfuscate_orig_root (gen : Nat → String) (ctx : Context) (pos : Nat)
    (ctx' : Context) (pos' : Nat)
    (h : Context.obfuscate gen ctx pos = .ok (ctx', pos')) :
    ctx'.orig_root = ctx.orig_root := by
  simp only [Context.obfuscate, bind, Except.bind] at h
  cases hl : obfuscate_games_loop gen ctx.iteration (dkeys ctx.extra_games)
      ctx.root ctx.extra_games pos with
  | error e => rw [hl] at h; cases h
  | ok v =>
    obtain ⟨root', eg', p'⟩ := v
    rw [hl] at h
    cases h
    rfl

theorem obfuscateN_orig_root (gen : Nat → String) :
    ∀ (n : Nat) (ctx : Context) (pos : Nat) (ctx' : Context) (pos' : Nat),
      Context.obfuscateN gen n ctx pos = .ok (ctx', pos') →
      ctx'.orig_root = ctx.orig_root := by
  intro n
  induction n with
  | zero =>
    intro ctx pos ctx' pos' h
    cases h; rfl
  | succ m ih =>
    intro ctx pos ctx' pos' h
    simp only [Context.obfuscateN, bind, Except.bind] at h
    cases hs : Context.obfuscate gen ctx pos with
    | error e => rw [hs] at h; cases h
    | ok v =>
      obtain ⟨c1, p1⟩ := v
      rw [hs] at h
      have h1 := obfuscate_orig_root gen ctx pos c1 p1 hs
      have h2 := ih c1 p1 ctx' pos' h
      rw [h2, h1]

/-- C9: for every parsed root, constructing the engine context and
running any number of obfuscation passes leaves the retained original
root structurally equal to the root as parsed — only the working copy is
rewritten. -/
theorem C9_original_root_retained (gen : Nat → String) (root : Root)
    (n : Nat) (ctx' : Context) (pos' : Nat)
    (h : run_obfuscation gen root n = .ok (ctx', pos')) :
    ctx'.orig_root = root :=
  obfuscateN_orig_root gen n (Context.init root) 0 ctx' pos' h

/-- Witness for `C9_original_root_retained`: the concrete two-pass run on
`exRoot` succeeds and retains the original root unchanged. -/
theorem C9_original_root_retained_witness :
    run_obfuscation genW exRoot 2 = .ok (exRun2, 4) ∧
    exRun2.orig_root = exRoot := by
  have h : run_obfuscation genW exRoot 2 = .ok (exRun2, 4) := by rfl
  exact ⟨h, C9_original_root_retained genW exRoot 2 exRun2 4 h⟩

/-! ### C3: where the generated triggers are inserted -/

theorem foldl_cons_eq_reverse_append {α : Type} :
    ∀ (l init : List α),
      l.foldl (fun acc elem => elem :: acc) init = l.reverse ++ init := by
  intro l
  induction l with
  | nil => intro init; simp
  | cons x xs ih => intro init; simp [ih]

theorem list_extend_beginning_eq {α : Type} (base_list prepend_with : List α) :
    list_extend_beginning base_list prepend_with = prepend_with ++ base_list := by
  simp [list_extend_beginning, foldl_cons_eq_reverse_append]

theorem rewrite_triggers_spec (game_name : String)
    (r2w : List (String × String)) (extraOptions : List (String × ApOption)) :
    ∀ (ts rw : List Trigger),
      rewrite_triggers game_name r2w extraOptions ts = .ok rw →
      rw.length = ts.length ∧
      ∀ (i : Nat) (hi : i < ts.length) (hi' : i < rw.length),
        rewrite_trigger game_name r2w extraOptions (ts.get ⟨i, hi⟩) =
          .ok (rw.get ⟨i, hi'⟩) := by
  intro ts
  induction ts with
  | nil =>
    intro rw h
    cases h
    exact ⟨rfl, fun i hi => by simp at hi⟩
  | cons t ts ih =>
    intro rw h
    simp only [rewrite_triggers, bind, Except.bind] at h
    cases ht : rewrite_trigger game_name r2w extraOptions t with
    | error e => rw [ht] at h; cases h
    | ok t' =>
      rw [ht] at h
      cases hts : rewrite_triggers game_name r2w extraOptions ts with
      | error e => rw [hts] at h; cases h
      | ok rw' =>
        rw [hts] at h
        cases h
        obtain ⟨hlen, hget⟩ := ih rw' hts
        refine ⟨by simpa using hlen, ?_⟩
        intro i hi hi'
        match i with
        | 0 => simpa using ht
        | j + 1 =>
          exact hget j (by simpa using hi) (by simpa using hi')

/-- Success shape of `obfuscate_game_wrap`: given the outcomes of its
stages, the whole call rewrites the named game, inserting the wrapper
triggers at the end (after the in-place-rewritten pre-existing triggers)
on the first pass, and at the front (via `list_extend_beginning`)
afterwards. -/
theorem obfuscate_game_wrap_ok (gen : Nat → String) (game_name : String)
    (root : Root) (extra_games : List (String × ContextExtra)) (pos : Nat)
    (game : Game) (extra : ContextExtra) (wt : List Trigger)
    (r2w : List (String × String)) (extra2 : ContextExtra) (pos2 : Nat)
    (opts' : List (String × ApOption))
    (h1 : root.game_by_name game_name = .ok game)
    (h2 : dlookup extra_games game_name = some extra)
    (h3 : extra.create_wrapper_options gen
      (game.options.filter (fun kv => kv.2.isWeightedOption)) pos =
      .ok (wt, r2w, extra2, pos2))
    (h4 : replace_wrapped_options r2w game.options extra2.options = .ok opts') :
    (obfuscate_game_wrap gen game_name false root extra_games pos =
      .ok (with_game root game_name (wrapped_game game opts' (wt ++ game.triggers)),
           dset extra_games game_name extra2, pos2)) ∧
    (∀ rw, rewrite_triggers game_name r2w extra2.options game.triggers = .ok rw →
      obfuscate_game_wrap gen game_name true root extra_games pos =
        .ok (with_game root game_name (wrapped_game game opts' (rw ++ wt)),
             dset extra_games game_name extra2, pos2)) := by
  constructor
  · simp only [obfuscate_game_wrap, h1, h2, h3, h4, bind, Except.bind,
      list_extend_beginning_eq, with_game, wrapped_game]
    rfl
  · intro rw h5
    simp only [obfuscate_game_wrap, h1, h2, h3, h4, h5, bind, Except.bind,
      with_game, wrapped_game]
    rfl

/-- C3: on pass 0 the freshly generated wrapper triggers are appended at
the end of the game's trigger list, after the in-place-rewritten
pre-existing triggers, and no pre-existing trigger is dropped (the
rewritten list has the same length, position by position); on every
subsequent pass the pre-existing triggers are left untouched and the
wrapper triggers are inserted at the front, preserving their relative
order. -/
theorem C3_trigger_insertion_order (gen : Nat → String) (game_name : String)
    (root : Root) (extra_games : List (String × ContextExtra)) (pos : Nat)
    (game : Game) (extra : ContextExtra) (wt : List Trigger)
    (r2w : List (String × String)) (extra2 : ContextExtra) (pos2 : Nat)
    (opts' : List (String × ApOption)) (rw : List Trigger)
    (h1 : root.game_by_name game_name = .ok game)
    (h2 : dlookup extra_games game_name = some extra)
    (h3 : extra.create_wrapper_options gen
      (game.options.filter (fun kv => kv.2.isWeightedOption)) pos =
      .ok (wt, r2w, extra2, pos2))
    (h4 : replace_wrapped_options r2w game.options extra2.options = .ok opts')
    (h5 : rewrite_triggers game_name r2w extra2.options game.triggers = .ok rw) :
    (obfuscate_game_wrap gen game_name true root extra_games pos =
      .ok (with_game root game_name (wrapped_game game opts' (rw ++ wt)),
           dset extra_games game_name extra2, pos2)) ∧
    rw.length = game.triggers.length ∧
    (∀ (i : Nat) (hi : i < game.triggers.length) (hi' : i < rw.length),
      rewrite_trigger game_name r2w extra2.options (game.triggers.get ⟨i, hi⟩) =
        .ok (rw.get ⟨i, hi'⟩)) ∧
    (obfuscate_game_wrap gen game_name false root extra_games pos =
      .ok (with_game root game_name (wrapped_game game opts' (wt ++ game.triggers)),
           dset extra_games game_name extra2, pos2)) := by
  obtain ⟨hfalse, htrue⟩ :=
    obfuscate_game_wrap_ok gen game_name root extra_games pos game extra wt r2w
      extra2 pos2 opts' h1 h2 h3 h4
  obtain ⟨hlen, hget⟩ := rewrite_triggers_spec game_name r2w extra2.options
    game.triggers rw h5
  exact ⟨htrue rw h5, hlen, hget, hfalse⟩

/-- Witness for `C3_trigger_insertion_order` on `exRootT` (one weighted
option, one pre-existing trigger that the rewrite leaves untouched): the
first pass appends the wrapper trigger after the pre-existing one, a
later pass would prepend it. -/
theorem C3_trigger_insertion_order_witness :
    (obfuscate_game_wrap genW "g" true exRootT (build_extra_games exRootT.games []) 0 =
      .ok (with_game exRootT "g" (wrapped_game exGameT [("w0", exWrapped)] ([exTrigRootCat] ++ exWT)),
           dset (build_extra_games exRootT.games []) "g" exExtra2, 2)) ∧
    (obfuscate_game_wrap genW "g" false exRootT (build_extra_games exRootT.games []) 0 =
      .ok (with_game exRootT "g" (wrapped_game exGameT [("w0", exWrapped)] (exWT ++ [exTrigRootCat])),
           dset (build_extra_games exRootT.games []) "g" exExtra2, 2)) := by
  have h := C3_trigger_insertion_order genW "g" exRootT
    (build_extra_games exRootT.games []) 0 exGameT ⟨"g", [], []⟩ exWT
    [("a", "w0")] exExtra2 2 [("w0", exWrapped)] [exTrigRootCat]
    (by rfl) (by rfl) (by rfl) (by rfl) (by rfl)
  exact ⟨h.1, h.2.2.2⟩

/-! ### Wrapping-step characterization lemmas -/

theorem mk_wrapper_triggers_results (game_name orig_name wrapped_name : String) :
    ∀ (ws : List (String × Value)) (ls : List String), ls.length = ws.length →
      (mk_wrapper_triggers game_name orig_name wrapped_name ws ls).map
        Trigger.option_result = ls.map Value.str := by
  intro ws
  induction ws with
  | nil =>
    intro ls hl
    rw [List.length_nil, List.length_eq_zero] at hl
    subst hl
    rfl
  | cons p rest ih =>
    intro ls hl
    obtain ⟨pk, pv⟩ := p
    match ls, hl with
    | l :: ls', hl =>
      simp only [mk_wrapper_triggers, List.map_cons]
      rw [ih ls' (by simpa using hl)]

theorem mk_wrapper_triggers_mem (game_name orig_name wrapped_name : String) :
    ∀ (ws : List (String × Value)) (ls : List String) (t : Trigger),
      t ∈ mk_wrapper_triggers game_name orig_name wrapped_name ws ls →
      t.option_category = game_name ∧ t.option_name = wrapped_name ∧
      ∃ lbl olbl, t.option_result = .str lbl ∧ lbl ∈ ls ∧
        olbl ∈ ws.map Prod.fst ∧
        t.options = .dict (.cons (.str game_name)
          (.dict (.cons (.str orig_name) (.str olbl) .nil)) .nil) := by
  intro ws
  induction ws with
  | nil => intro ls t ht; cases ht
  | cons p rest ih =>
    intro ls t ht
    obtain ⟨pk, pv⟩ := p
    match ls with
    | [] => cases ht
    | l :: ls' =>
      rcases List.mem_cons.mp ht with rfl | ht'
      · exact ⟨rfl, rfl, l, pk, rfl, List.mem_cons_self _ _,
          List.mem_cons_self _ _, rfl⟩
      · obtain ⟨h1, h2, lbl, olbl, h3, h4, h5, h6⟩ := ih ls' t ht'
        exact ⟨h1, h2, lbl, olbl, h3, List.mem_cons_of_mem _ h4,
          List.mem_cons_of_mem _ h5, h6⟩

theorem wrap_labels_spec (gen : Nat → String)
    (game_name orig_name wrapped_name : String) :
    ∀ (ws : List (String × Value)) (names : List String)
      (w : List (String × Value)) (nwn : List (String × String))
      (trigs : List Trigger) (pos : Nat) (names' : List String)
      (w' : List (String × Value)) (nwn' : List (String × String))
      (trigs' : List Trigger) (pos' : Nat),
      wrap_labels gen game_name orig_name wrapped_name ws names w nwn trigs pos =
        .ok (names', w', nwn', trigs', pos') →
      (ws.map Prod.fst).Nodup →
      (∀ k ∈ dkeys w, k ∈ names) →
      (∀ k ∈ ws.map Prod.fst, k ∉ dkeys nwn) →
      ∃ ls : List String,
        ls.length = ws.length ∧ ls.Nodup ∧
        (∀ l ∈ ls, l ∉ names) ∧
        (∀ l ∈ ls, ∃ j, pos ≤ j ∧ l = gen j) ∧
        names' = names ++ ls ∧
        w' = w ++ ls.zip (ws.map Prod.snd) ∧
        nwn' = nwn ++ (ws.map Prod.fst).zip ls ∧
        trigs' = trigs ++ mk_wrapper_triggers game_name orig_name wrapped_name ws ls ∧
        pos ≤ pos' := by
  intro ws
  induction ws with
  | nil =>
    intro names w nwn trigs pos names' w' nwn' trigs' pos' h _ _ _
    refine ⟨[], by simp, by simp, by simp, by simp, ?_⟩
    cases h
    simp [mk_wrapper_triggers]
  | cons p rest ih =>
    intro names w nwn trigs pos names' w' nwn' trigs' pos' h hnd hw hn
    obtain ⟨weight_name, weight⟩ := p
    simp only [wrap_labels, bind, Except.bind] at h
    cases hg : generate_unique_name gen names pos with
    | error e => rw [hg] at h; cases h
    | ok v =>
      obtain ⟨wwn, pos1⟩ := v
      rw [hg] at h
      have hfresh : wwn ∉ names := generate_unique_name_ok_not_mem gen names pos wwn pos1 hg
      obtain ⟨hlt, hgen⟩ := generate_unique_name_ok_stream gen names pos wwn pos1 hg
      rw [List.map_cons, List.nodup_cons] at hnd
      have hwset : dset w wwn weight = w ++ [(wwn, weight)] :=
        dset_eq_append w wwn weight (fun hk => hfresh (hw wwn hk))
      have hnset : dset nwn weight_name wwn = nwn ++ [(weight_name, wwn)] :=
        dset_eq_append nwn weight_name wwn (hn weight_name (by simp))
      obtain ⟨ls', hlen, hnd', hfr', hgen', hnames', hw', hnwn', htr', hpos'⟩ :=
        ih (names ++ [wwn]) (dset w wwn weight) (dset nwn weight_name wwn)
          (trigs ++ [{ option_category := game_name, option_name := wrapped_name,
                       option_result := .str wwn,
                       options := .dict (.cons (.str game_name)
                         (.dict (.cons (.str orig_name) (.str weight_name) .nil)) .nil) }])
          pos1 names' w' nwn' trigs' pos' h hnd.2
          (by
            intro k hk
            rw [hwset, dkeys_append] at hk
            rcases List.mem_append.mp hk with hk | hk
            · exact List.mem_append_left _ (hw k hk)
            · simp only [dkeys, List.map_cons, List.map_nil] at hk
              simp [List.mem_singleton.mp hk])
          (by
            intro k hk
            rw [hnset, dkeys_append]
            intro hmem
            rcases List.mem_append.mp hmem with hmem | hmem
            · exact hn k (List.mem_cons_of_mem _ hk) hmem
            · simp only [dkeys, List.map_cons, List.map_nil,
                List.mem_singleton] at hmem
              exact hnd.1 (hmem ▸ hk))
      refine ⟨wwn :: ls', by simpa using hlen, ?_, ?_, ?_, ?_, ?_, ?_, ?_, ?_⟩
      · rw [List.nodup_cons]
        refine ⟨?_, hnd'⟩
        intro hmem
        exact hfr' wwn hmem (by simp)
      · intro l hl
        rcases List.mem_cons.mp hl with rfl | hl
        · exact hfresh
        · intro hmem
          exact hfr' l hl (List.mem_append_left _ hmem)
      · intro l hl
        rcases List.mem_cons.mp hl with rfl | hl
        · exact ⟨pos1 - 1, by omega, hgen⟩
        · obtain ⟨j, hj, hjeq⟩ := hgen' l hl
          exact ⟨j, by omega, hjeq⟩
      · rw [hnames', List.append_assoc]
        rfl
      · rw [hw', hwset, List.append_assoc]
        rfl
      · rw [hnwn', hnset, List.append_assoc]
        rfl
      · rw [htr', List.append_assoc]
        rfl
      · omega

theorem create_wrapper_one_spec (gen : Nat → String) (game_name : String)
    (extraOptions : List (String × ApOption)) (triggers : List Trigger)
    (r2w : List (String × String)) (orig_name : String) (opt : ApOption)
    (pos : Nat) (eo' : List (String × ApOption)) (trigs' : List Trigger)
    (r2w' : List (String × String)) (pos' : Nat)
    (h : create_wrapper_one gen game_name extraOptions triggers r2w orig_name
      opt pos = .ok (eo', trigs', r2w', pos'))
    (hw : (opt.weights.map Prod.fst).Nodup) :
    ∃ (wn : String) (ls : List String),
      wn ∉ dkeys extraOptions ∧
      (∃ j, pos ≤ j ∧ wn = gen j) ∧
      ls.Nodup ∧ ls.length = opt.weights.length ∧
      (∀ l ∈ ls, ∃ j, pos ≤ j ∧ l = gen j) ∧
      eo' = extraOptions ++
        [(wn, .wrapped (ls.zip (opt.weights.map Prod.snd)) opt orig_name
          ((opt.weights.map Prod.fst).zip ls))] ∧
      trigs' = triggers ++ mk_wrapper_triggers game_name orig_name wn opt.weights ls ∧
      r2w' = dset r2w orig_name wn ∧
      pos < pos' := by
  simp only [create_wrapper_one, bind, Except.bind] at h
  cases hg : generate_unique_name gen (dkeys extraOptions) pos with
  | error e => rw [hg] at h; cases h
  | ok v =>
    obtain ⟨wn, pos1⟩ := v
    rw [hg] at h
    dsimp only at h
    have hfresh : wn ∉ dkeys extraOptions :=
      generate_unique_name_ok_not_mem gen (dkeys extraOptions) pos wn pos1 hg
    obtain ⟨hlt, hgen⟩ :=
      generate_unique_name_ok_stream gen (dkeys extraOptions) pos wn pos1 hg
    cases hwl : wrap_labels gen game_name orig_name wn opt.weights [] [] [] triggers pos1 with
    | error e => rw [hwl] at h; cases h
    | ok v2 =>
      obtain ⟨names1, w1, nwn1, trigs1, pos2⟩ := v2
      rw [hwl] at h
      dsimp only at h
      obtain ⟨ls, hlen, hnd, -, hgen', -, hw1, hnwn1, htr1, hpos2⟩ :=
        wrap_labels_spec gen game_name orig_name wn opt.weights [] [] [] triggers
          pos1 names1 w1 nwn1 trigs1 pos2 hwl hw (by simp [dkeys]) (by simp [dkeys])
      rw [List.nil_append] at hw1 hnwn1
      have hw1len : w1.length = opt.weights.length := by
        rw [hw1, List.length_zip, List.length_map, hlen]
        exact Nat.min_self _
      rw [if_neg (show ¬ (w1.length ≠ opt.weights.length) from
        fun hc => hc hw1len)] at h
      by_cases hemp : w1.isEmpty
      · rw [if_pos hemp] at h; cases h
      · rw [if_neg hemp] at h
        cases h
        refine ⟨wn, ls, hfresh, ⟨pos1 - 1, by omega, hgen⟩, hnd, hlen, ?_, ?_, ?_,
          rfl, by omega⟩
        · intro l hl
          obtain ⟨j, hj, hjeq⟩ := hgen' l hl
          exact ⟨j, by omega, hjeq⟩
        · rw [dset_eq_append extraOptions wn _ hfresh, hw1, hnwn1]
        · exact htr1

theorem create_wrapper_options_go_spec (gen : Nat → String) (game_name : String) :
    ∀ (items extraOptions : List (String × ApOption)) (triggers : List Trigger)
      (r2w : List (String × String)) (pos : Nat) (wt : List Trigger)
      (r2w' : List (String × String)) (eo' : List (String × ApOption)) (pos' : Nat),
      create_wrapper_options_go gen game_name items extraOptions triggers r2w pos =
        .ok (wt, r2w', eo', pos') →
      (items.map Prod.fst).Nodup →
      (∀ p ∈ items, (p.2.weights.map Prod.fst).Nodup) →
      (∀ k ∈ items.map Prod.fst, k ∉ dkeys r2w) →
      ∃ (pairs : List (String × String)) (wrappers : List (String × ApOption))
        (newTrigs : List Trigger),
        r2w' = r2w ++ pairs ∧
        pairs.map Prod.fst =
          (items.filter (fun p => p.2.isWeightedOption)).map Prod.fst ∧
        eo' = extraOptions ++ wrappers ∧
        wrappers.map Prod.fst = pairs.map Prod.snd ∧
        (pairs.map Prod.snd).Nodup ∧
        (∀ wn ∈ pairs.map Prod.snd, wn ∉ dkeys extraOptions ∧ ∃ j, pos ≤ j ∧ wn = gen j) ∧
        wt = triggers ++ newTrigs ∧
        (∀ t ∈ newTrigs, ∃ rn wn, (rn, wn) ∈ pairs ∧
          t.option_category = game_name ∧ t.option_name = wn ∧
          ∃ lbl olbl, t.option_result = .str lbl ∧
            t.options = .dict (.cons (.str game_name)
              (.dict (.cons (.str rn) (.str olbl) .nil)) .nil)) ∧
        pos ≤ pos' := by
  intro items
  induction items with
  | nil =>
    intro extraOptions triggers r2w pos wt r2w' eo' pos' h _ _ _
    cases h
    exact ⟨[], [], [], by simp, by simp, by simp, by simp, by simp, by simp,
      by simp, by simp, by omega⟩
  | cons p rest ih =>
    intro extraOptions triggers r2w pos wt r2w' eo' pos' h hnd hwn hr2w
    obtain ⟨orig_name, orig_option⟩ := p
    rw [List.map_cons, List.nodup_cons] at hnd
    by_cases hwopt : orig_option.isWeightedOption
    · simp only [create_wrapper_options_go, hwopt, if_true, bind, Except.bind] at h
      cases hone : create_wrapper_one gen game_name extraOptions triggers r2w
          orig_name orig_option pos with
      | error e => rw [hone] at h; cases h
      | ok v =>
        obtain ⟨eo1, trigs1, r2w1, pos1⟩ := v
        rw [hone] at h
        dsimp only at h
        obtain ⟨wn, ls, hfresh, hgenwn, -, -, -, heo1, htrigs1, hr2w1, hposlt⟩ :=
          create_wrapper_one_spec gen game_name extraOptions triggers r2w
            orig_name orig_option pos eo1 trigs1 r2w1 pos1 hone
            (hwn (orig_name, orig_option) (List.mem_cons_self _ _))
        have hr2w1' : r2w1 = r2w ++ [(orig_name, wn)] := by
          rw [hr2w1]
          exact dset_eq_append r2w orig_name wn (hr2w orig_name (by simp))
        obtain ⟨pairs', wrappers', newTrigs', ha, hb, hc, hd, he, hf, hg2, hh, hi⟩ :=
          ih eo1 trigs1 r2w1 pos1 wt r2w' eo' pos' h hnd.2
            (fun q hq => hwn q (List.mem_cons_of_mem _ hq))
            (by
              intro k hk
              rw [hr2w1', dkeys_append]
              intro hmem
              rcases List.mem_append.mp hmem with hmem | hmem
              · exact hr2w k (List.mem_cons_of_mem _ hk) hmem
              · rw [dkeys_cons, dkeys_nil, List.mem_singleton] at hmem
                exact hnd.1 (hmem ▸ hk))
        refine ⟨(orig_name, wn) :: pairs',
          (wn, .wrapped (ls.zip (orig_option.weights.map Prod.snd)) orig_option
            orig_name ((orig_option.weights.map Prod.fst).zip ls)) :: wrappers',
          mk_wrapper_triggers game_name orig_name wn orig_option.weights ls ++ newTrigs',
          ?_, ?_, ?_, ?_, ?_, ?_, ?_, ?_, by omega⟩
        · rw [ha, hr2w1']
          simp
        · rw [List.map_cons]
          rw [show List.filter (fun p => p.2.isWeightedOption)
              ((orig_name, orig_option) :: rest) =
            (orig_name, orig_option) ::
              List.filter (fun p => p.2.isWeightedOption) rest from by
            simp [List.filter_cons, hwopt]]
          rw [List.map_cons, hb]
        · rw [hc, heo1]
          simp
        · simp only [List.map_cons]
          rw [hd]
        · rw [List.map_cons, List.nodup_cons]
          constructor
          · intro hmem
            have := (hf wn hmem).1
            rw [heo1, dkeys_append] at this
            exact this (List.mem_append_right _ (by simp [dkeys]))
          · exact he
        · intro wn2 hwn2
          rw [List.map_cons] at hwn2
          rcases List.mem_cons.mp hwn2 with rfl | hwn2'
          · obtain ⟨j, hj, hjeq⟩ := hgenwn
            exact ⟨hfresh, j, hj, hjeq⟩
          · obtain ⟨hnotin, j, hj, hjeq⟩ := hf wn2 hwn2'
            refine ⟨?_, j, by omega, hjeq⟩
            intro hmem
            rw [heo1, dkeys_append] at hnotin
            exact hnotin (List.mem_append_left _ hmem)
        · rw [hg2, htrigs1]
          simp
        · intro t ht
          rcases List.mem_append.mp ht with ht | ht
          · obtain ⟨h1, h2, lbl, olbl, h3, -, -, h6⟩ :=
              mk_wrapper_triggers_mem game_name orig_name wn orig_option.weights
                ls t ht
            exact ⟨orig_name, wn, List.mem_cons_self _ _, h1, h2, lbl, olbl, h3, h6⟩
          · obtain ⟨rn, wn2, hmem, rest'⟩ := hh t ht
            exact ⟨rn, wn2, List.mem_cons_of_mem _ hmem, rest'⟩
    · simp only [create_wrapper_options_go, hwopt, if_false] at h
      obtain ⟨pairs, wrappers, newTrigs, ha, hb, hc, hd, he, hf, hg2, hh, hi⟩ :=
        ih extraOptions triggers r2w pos wt r2w' eo' pos' h hnd.2
          (fun q hq => hwn q (List.mem_cons_of_mem _ hq))
          (fun k hk => hr2w k (List.mem_cons_of_mem _ hk))
      refine ⟨pairs, wrappers, newTrigs, ha, ?_, hc, hd, he, hf, hg2, hh, hi⟩
      rw [hb]
      congr 1
      simp [List.filter_cons, hwopt]

theorem create_wrapper_options_ok (gen : Nat → String) (extra : ContextExtra)
    (orig_options : List (String × ApOption)) (pos : Nat) (wt : List Trigger)
    (r2w : List (String × String)) (extra2 : ContextExtra) (pos2 : Nat)
    (h : extra.create_wrapper_options gen orig_options pos =
      .ok (wt, r2w, extra2, pos2)) :
    create_wrapper_options_go gen extra.game_name orig_options extra.options
      [] [] pos = .ok (wt, r2w, extra2.options, pos2) := by
  simp only [ContextExtra.create_wrapper_options, bind, Except.bind] at h
  cases hg : create_wrapper_options_go gen extra.game_name orig_options
      extra.options [] [] pos with
  | error e => rw [hg] at h; cases h
  | ok v =>
    obtain ⟨t, ⟨r, eo, p⟩⟩ := v
    rw [hg] at h
    dsimp only at h
    cases h
    rfl

/-! ### C2: wrapping preserves the label structure -/

/-- C2: for every `WeightedOption` wrapped by the per-option wrapping
step, the wrapper's label count equals the original's, the original
labels are put in bijection (via `wrapped_weights_names`) with the
freshly generated, pairwise-distinct wrapper labels, each original weight
is copied to the corresponding wrapper label, and the generated triggers
are exactly `mk_wrapper_triggers` — one per wrapper label, with
`option_result` exactly the wrapper's label set and an override sending
the original option name to the corresponding original label in the
game's scope. -/
theorem C2_wrapping_preserves_labels (gen : Nat → String) (game_name : String)
    (extraOptions : List (String × ApOption)) (triggers : List Trigger)
    (r2w : List (String × String)) (orig_name : String) (opt : ApOption)
    (pos : Nat) (eo' : List (String × ApOption)) (trigs' : List Trigger)
    (r2w' : List (String × String)) (pos' : Nat)
    (h : create_wrapper_one gen game_name extraOptions triggers r2w orig_name
      opt pos = .ok (eo', trigs', r2w', pos'))
    (hw : (opt.weights.map Prod.fst).Nodup) :
    ∀ (wn : String) (wo : ApOption), eo' = extraOptions ++ [(wn, wo)] →
      wo.weights.length = opt.weights.length ∧
      (wo.weights.map Prod.fst).Nodup ∧
      wo.wrapped_weights_names =
        some ((opt.weights.map Prod.fst).zip (wo.weights.map Prod.fst)) ∧
      wo.weights.map Prod.snd = opt.weights.map Prod.snd ∧
      trigs' = triggers ++ mk_wrapper_triggers game_name orig_name wn
        opt.weights (wo.weights.map Prod.fst) ∧
      (mk_wrapper_triggers game_name orig_name wn opt.weights
        (wo.weights.map Prod.fst)).map Trigger.option_result =
        (wo.weights.map Prod.fst).map Value.str ∧
      r2w' = dset r2w orig_name wn := by
  intro wn wo heq
  obtain ⟨wn0, ls, -, -, hnd, hlen, -, heo', htr', hr2w', -⟩ :=
    create_wrapper_one_spec gen game_name extraOptions triggers r2w orig_name
      opt pos eo' trigs' r2w' pos' h hw
  rw [heq] at heo'
  have hpair : wn = wn0 ∧
      wo = ApOption.wrapped (ls.zip (opt.weights.map Prod.snd)) opt orig_name
        ((opt.weights.map Prod.fst).zip ls) := by
    have := List.append_cancel_left heo'
    simpa using this
  obtain ⟨h1, h2⟩ := hpair
  subst h1
  subst h2
  have hfst : (ls.zip (opt.weights.map Prod.snd)).map Prod.fst = ls :=
    List.map_fst_zip ls (opt.weights.map Prod.snd)
      (by rw [List.length_map, hlen])
  have hsnd : (ls.zip (opt.weights.map Prod.snd)).map Prod.snd =
      opt.weights.map Prod.snd :=
    List.map_snd_zip ls (opt.weights.map Prod.snd)
      (by rw [List.length_map, hlen])
  have hww : (ApOption.wrapped (ls.zip (opt.weights.map Prod.snd)) opt orig_name
      ((opt.weights.map Prod.fst).zip ls)).weights =
      ls.zip (opt.weights.map Prod.snd) := rfl
  have hwwn : (ApOption.wrapped (ls.zip (opt.weights.map Prod.snd)) opt orig_name
      ((opt.weights.map Prod.fst).zip ls)).wrapped_weights_names =
      some ((opt.weights.map Prod.fst).zip ls) := rfl
  refine ⟨?_, ?_, ?_, ?_, ?_, ?_, hr2w'⟩
  · rw [hww, List.length_zip, List.length_map, hlen]
    exact Nat.min_self _
  · rw [hww, hfst]
    exact hnd
  · rw [hwwn, hww, hfst]
  · rw [hww, hsnd]
  · rw [htr', hww, hfst]
  · rw [hww, hfst]
    exact mk_wrapper_triggers_results game_name orig_name _ opt.weights ls hlen

/-- Witness for `C2_wrapping_preserves_labels`: the wrapping of
`exGame`'s option `a ↦ {x: 1}` under `genW`. -/
theorem C2_wrapping_preserves_labels_witness :
    exWrapped.weights.length = ([("x", Value.int 1)] : List (String × Value)).length ∧
    (exWrapped.weights.map Prod.fst).Nodup ∧
    exWrapped.wrapped_weights_names =
      some ((["x"] : List String).zip (exWrapped.weights.map Prod.fst)) ∧
    exWrapped.weights.map Prod.snd = [Value.int 1] ∧
    exWT = [] ++ mk_wrapper_triggers "g" "a" "w0" [("x", .int 1)]
      (exWrapped.weights.map Prod.fst) ∧
    (mk_wrapper_triggers "g" "a" "w0" [("x", .int 1)]
      (exWrapped.weights.map Prod.fst)).map Trigger.option_result =
      (exWrapped.weights.map Prod.fst).map Value.str ∧
    ([("a", "w0")] : List (String × String)) = dset [] "a" "w0" := by
  have h := C2_wrapping_preserves_labels genW "g" [] [] [] "a"
    (.weighted [("x", .int 1)]) 0 [("w0", exWrapped)] exWT [("a", "w0")] 2
    (by rfl) (by decide) "w0" exWrapped (by rfl)
  exact h

/-! ### C5: wrapper-name freshness -/

/-- C5 counterexample: the oracle behaviour `genBad` draws the name `b`
first; the wrapping step accepts it for option `a` (the exclusion set
`self.options.keys()` starts empty and never contains the game's
pre-existing option names), so the generated wrapper name collides with
the pre-existing option name `b` of `exGameB`. -/
theorem C5_wrapper_name_collision_counterexample :
    (ContextExtra.create_wrapper_options genBad ⟨"g", [], []⟩ exGameB.options 0).toOption.map
      (fun q => q.2.1) = some [("a", "b"), ("b", "w2")] ∧
    "b" ∈ dkeys exGameB.options := by
  exact ⟨rfl, by decide⟩

/-- C5 amended: for every behaviour of the random source, the wrapper
names generated while wrapping a game's options are pairwise distinct and
distinct from every name already tracked in the per-game context's
accumulated option map (which holds all wrapper names generated for that
game, across passes) — but they are not necessarily distinct from the
game's pre-existing option names, which are not in the exclusion set. -/
theorem C5_amended_wrapper_name_freshness (gen : Nat → String)
    (extra : ContextExtra) (orig_options : List (String × ApOption))
    (pos : Nat) (wt : List Trigger) (r2w : List (String × String))
    (extra2 : ContextExtra) (pos2 : Nat)
    (h : extra.create_wrapper_options gen orig_options pos =
      .ok (wt, r2w, extra2, pos2))
    (hnd : (orig_options.map Prod.fst).Nodup)
    (hwn : ∀ p ∈ orig_options, (p.2.weights.map Prod.fst).Nodup) :
    dkeys extra2.options = dkeys extra.options ++ new_option_names extra extra2 ∧
    (new_option_names extra extra2).Nodup ∧
    (∀ n ∈ new_option_names extra extra2, n ∉ dkeys extra.options) := by
  have hgo := create_wrapper_options_ok gen extra orig_options pos wt r2w extra2 pos2 h
  obtain ⟨pairs, wrappers, newTrigs, -, -, hc, hd, he, hf, -, -, -⟩ :=
    create_wrapper_options_go_spec gen extra.game_name orig_options
      extra.options [] [] pos wt r2w extra2.options pos2 hgo hnd hwn
      (by simp [dkeys])
  have hkeys : dkeys extra2.options = dkeys extra.options ++ dkeys wrappers := by
    rw [hc, dkeys_append]
  have hnew : new_option_names extra extra2 = dkeys wrappers := by
    rw [new_option_names, hkeys, List.drop_left]
  refine ⟨by rw [hkeys, hnew], ?_, ?_⟩
  · rw [hnew]
    show (wrappers.map Prod.fst).Nodup
    rw [hd]
    exact he
  · intro n hn
    rw [hnew] at hn
    have : n ∈ pairs.map Prod.snd := by
      rw [← hd]
      exact hn
    exact (hf n this).1

/-- Witness for `C5_amended_wrapper_name_freshness`: the wrapping of
`exGame` under `genW` adds the single fresh name `w0`. -/
theorem C5_amended_wrapper_name_freshness_witness :
    dkeys exExtra2.options =
      dkeys (ContextExtra.mk "g" [] []).options ++
        new_option_names ⟨"g", [], []⟩ exExtra2 ∧
    (new_option_names ⟨"g", [], []⟩ exExtra2).Nodup ∧
    "w0" ∉ dkeys (ContextExtra.mk "g" [] []).options := by
  have h := C5_amended_wrapper_name_freshness genW ⟨"g", [], []⟩ exGame.options 0
    exWT [("a", "w0")] exExtra2 2 (by rfl) (by decide) (by
      intro p hp
      simp only [exGame, List.mem_singleton] at hp
      subst hp
      decide)
  exact ⟨h.1, h.2.1, h.2.2 "w0" (by decide)⟩

/-! ### C1: trigger resolution after the engine runs -/

/-- C1 counterexample: after the two-pass engine run on the spec's own
end-to-end example, trigger resolution fails — the only remaining option
is the pass-1 wrapper `w2`, while the triggers' override maps target `w0`
(the pass-0 wrapper, deleted by pass 1) and `a` (the wrapped original,
deleted by pass 0 and never kept as a hidden option), and the pass-0
trigger's own `option_name` `w0` dangles as well. -/
theorem C1_dangling_reference_counterexample :
    (run_obfuscation genW exRoot 2).toOption.map
      (fun cp => cp.1.root.games.map game_triggers_resolve) = some [false] ∧
    (run_obfuscation genW exRoot 1).toOption.map
      (fun cp => cp.1.root.games.map (fun g => dkeys g.options)) = some [["w0"]] ∧
    (run_obfuscation genW exRoot 2).toOption.map
      (fun cp => cp.1.root.games.map (fun g => dkeys g.options)) = some [["w2"]] ∧
    (run_obfuscation genW exRoot 2).toOption.map
      (fun cp => cp.1.root.games.map
        (fun g => g.triggers.map (trigger_override_keys g.name))) =
      some [[[.str "w0"], [.str "a"]]] := by
  exact ⟨rfl, rfl, rfl, rfl⟩

theorem mem_dkeys_of_mem_ddel {α : Type} :
    ∀ (d : List (String × α)) (k' k : String),
      k ∈ dkeys (ddel d k') → k ∈ dkeys d := by
  intro d
  induction d with
  | nil => intro k' k h; simpa [ddel] using h
  | cons p tl ih =>
    intro k' k h
    obtain ⟨pk, pv⟩ := p
    rw [show ddel ((pk, pv) :: tl) k' =
      (if pk = k' then tl else (pk, pv) :: ddel tl k') from rfl] at h
    by_cases hpk : pk = k'
    · rw [if_pos hpk] at h
      rw [dkeys_cons]
      exact List.mem_cons_of_mem _ h
    · rw [if_neg hpk, dkeys_cons] at h
      rw [dkeys_cons]
      rcases List.mem_cons.mp h with rfl | h
      · exact List.mem_cons_self _ _
      · exact List.mem_cons_of_mem _ (ih k' k h)

theorem replace_wrapped_options_preserved :
    ∀ (pairs : List (String × String)) (opts eo opts'' : List (String × ApOption)),
      replace_wrapped_options pairs opts eo = .ok opts'' →
      ∀ k, k ∈ dkeys opts → k ∉ pairs.map Prod.fst → k ∈ dkeys opts'' := by
  intro pairs
  induction pairs with
  | nil =>
    intro opts eo opts'' h k hk _
    cases h
    exact hk
  | cons p rest ih =>
    intro opts eo opts'' h k hk hnp
    obtain ⟨rn, wn⟩ := p
    simp only [replace_wrapped_options] at h
    cases hl : dlookup eo wn with
    | none => rw [hl] at h; cases h
    | some o =>
      rw [hl] at h
      rw [List.map_cons, List.mem_cons] at hnp
      push_neg at hnp
      refine ih _ eo opts'' h k ?_ hnp.2
      rw [mem_dkeys_dset]
      left
      rw [mem_dkeys_ddel_ne opts rn k hnp.1]
      exact hk

theorem replace_wrapped_options_absent :
    ∀ (pairs : List (String × String)) (opts eo opts'' : List (String × ApOption)),
      replace_wrapped_options pairs opts eo = .ok opts'' →
      ∀ k, k ∉ dkeys opts → k ∉ pairs.map Prod.snd → k ∉ dkeys opts'' := by
  intro pairs
  induction pairs with
  | nil =>
    intro opts eo opts'' h k hk _
    cases h
    exact hk
  | cons p rest ih =>
    intro opts eo opts'' h k hk hnp
    obtain ⟨rn, wn⟩ := p
    simp only [replace_wrapped_options] at h
    cases hl : dlookup eo wn with
    | none => rw [hl] at h; cases h
    | some o =>
      rw [hl] at h
      rw [List.map_cons, List.mem_cons] at hnp
      push_neg at hnp
      refine ih _ eo opts'' h k ?_ hnp.2
      intro hmem
      rcases (mem_dkeys_dset _ wn o k).mp hmem with hmem | rfl
      · exact hk (mem_dkeys_of_mem_ddel opts rn k hmem)
      · exact hnp.1 rfl

theorem replace_wrapped_options_spec :
    ∀ (pairs : List (String × String)) (opts eo opts'' : List (String × ApOption)),
      replace_wrapped_options pairs opts eo = .ok opts'' →
      (dkeys opts).Nodup →
      (pairs.map Prod.fst).Nodup →
      (∀ wn ∈ pairs.map Prod.snd, wn ∉ pairs.map Prod.fst) →
      (dkeys opts'').Nodup ∧
      (∀ wn ∈ pairs.map Prod.snd, wn ∈ dkeys opts'') ∧
      (∀ rn ∈ pairs.map Prod.fst, rn ∉ dkeys opts'') := by
  intro pairs
  induction pairs with
  | nil =>
    intro opts eo opts'' h hnd _ _
    cases h
    exact ⟨hnd, by simp, by simp⟩
  | cons p rest ih =>
    intro opts eo opts'' h hnd hpnd hdisj
    obtain ⟨rn, wn⟩ := p
    simp only [replace_wrapped_options] at h
    cases hl : dlookup eo wn with
    | none => rw [hl] at h; cases h
    | some o =>
      rw [hl] at h
      rw [List.map_cons, List.nodup_cons] at hpnd
      have hnd1 : (dkeys (dset (ddel opts rn) wn o)).Nodup :=
        dkeys_dset_nodup _ wn o (dkeys_ddel_nodup opts rn hnd)
      obtain ⟨hnd'', hmem'', habs''⟩ := ih _ eo opts'' h hnd1 hpnd.2
        (fun wn2 hwn2 => fun hmem =>
          hdisj wn2 (List.mem_cons_of_mem _ hwn2) (List.mem_cons_of_mem _ hmem))
      have hwn_ne_rn : wn ≠ rn := by
        intro hc
        exact hdisj wn (by simp) (by simp [hc])
      refine ⟨hnd'', ?_, ?_⟩
      · intro wn2 hwn2
        rw [List.map_cons, List.mem_cons] at hwn2
        rcases hwn2 with rfl | hwn2
        · refine replace_wrapped_options_preserved rest _ eo opts'' h wn2 ?_ ?_
          · rw [mem_dkeys_dset]
            right; rfl
          · intro hmem
            exact hdisj wn2 (by simp) (List.mem_cons_of_mem _ hmem)
        · exact hmem'' wn2 hwn2
      · intro rn2 hrn2
        rw [List.map_cons, List.mem_cons] at hrn2
        rcases hrn2 with rfl | hrn2
        · refine replace_wrapped_options_absent rest _ eo opts'' h rn2 ?_ ?_
          · intro hmem
            rcases (mem_dkeys_dset _ wn o rn2).mp hmem with hmem | rfl
            · exact mem_dkeys_ddel_self opts rn2 hnd hmem
            · exact hwn_ne_rn rfl
          · intro hmem
            exact hdisj rn2 (List.mem_cons_of_mem _ hmem) (by simp)
        · exact habs'' rn2 hrn2

theorem rewrite_trigger_affected_name (game_name : String)
    (r2w : List (String × String)) (extraOptions : List (String × ApOption))
    (t t' : Trigger) (wn : String)
    (h : rewrite_trigger game_name r2w extraOptions t = .ok t')
    (hcat : t.option_category = game_name)
    (hn : dlookup r2w t.option_name = some wn) :
    t'.option_name = wn := by
  simp only [rewrite_trigger, bind, Except.bind] at h
  rw [if_neg (show ¬ (t.option_category ≠ game_name) from fun hc => hc hcat),
    hn] at h
  iterate 8 (all_goals (try split at h))
  all_goals (try cases h)
  all_goals simp_all

/-- C1 amended: after a first-pass wrapping step (with wrapper names fresh
with respect to the game's option names, as the weird-character alphabet
ensures in practice), every generated trigger's `option_name` and every
rewritten affected trigger's `option_name` resolve to an option present in
the output game; but each wrapped original option is removed from the
game's option mapping — not kept as a hidden option — and the option
names used as keys inside the generated triggers' override maps are
exactly those removed original names, so those override references do not
resolve within the output game. -/
theorem C1_amended_trigger_resolution (gen : Nat → String) (game_name : String)
    (root : Root) (extra_games : List (String × ContextExtra)) (pos : Nat)
    (game : Game) (extra : ContextExtra) (wt : List Trigger)
    (r2w : List (String × String)) (extra2 : ContextExtra) (pos2 : Nat)
    (opts' : List (String × ApOption)) (rw : List Trigger)
    (h1 : root.game_by_name game_name = .ok game)
    (h2 : dlookup extra_games game_name = some extra)
    (hgn : extra.game_name = game_name)
    (h3 : extra.create_wrapper_options gen
      (game.options.filter (fun kv => kv.2.isWeightedOption)) pos =
      .ok (wt, r2w, extra2, pos2))
    (h4 : replace_wrapped_options r2w game.options extra2.options = .ok opts')
    (h5 : rewrite_triggers game_name r2w extra2.options game.triggers = .ok rw)
    (hnd : (dkeys game.options).Nodup)
    (hwopts : ∀ p ∈ game.options, (p.2.weights.map Prod.fst).Nodup)
    (hfresh : ∀ j, gen j ∉ dkeys game.options) :
    (obfuscate_game_wrap gen game_name true root extra_games pos =
      .ok (with_game root game_name (wrapped_game game opts' (rw ++ wt)),
           dset extra_games game_name extra2, pos2)) ∧
    (∀ t ∈ wt, (dlookup opts' t.option_name).isSome = true) ∧
    (∀ rn ∈ r2w.map Prod.fst, rn ∈ dkeys game.options ∧ dlookup opts' rn = none) ∧
    (∀ t ∈ wt, ∃ rn, rn ∈ r2w.map Prod.fst ∧
      trigger_override_keys game_name t = [.str rn]) ∧
    (∀ (i : Nat) (hi : i < game.triggers.length) (hi' : i < rw.length),
      (game.triggers.get ⟨i, hi⟩).option_category = game_name →
      ∀ wn, dlookup r2w (game.triggers.get ⟨i, hi⟩).option_name = some wn →
        (rw.get ⟨i, hi'⟩).option_name = wn ∧
        (dlookup opts' wn).isSome = true) := by
  have hgo := create_wrapper_options_ok gen extra _ pos wt r2w extra2 pos2 h3
  have hfilter_nd : ((game.options.filter
      (fun kv => kv.2.isWeightedOption)).map Prod.fst).Nodup :=
    ((List.filter_sublist _).map Prod.fst).nodup hnd
  obtain ⟨pairs, wrappers, newTrigs, ha, hb, hc, hd, he, hf, hg2, hh, -⟩ :=
    create_wrapper_options_go_spec gen extra.game_name _ extra.options [] [] pos
      wt r2w extra2.options pos2 hgo hfilter_nd
      (fun p hp => hwopts p (List.mem_of_mem_filter hp))
      (by simp [dkeys])
  rw [List.nil_append] at ha hg2
  subst ha
  subst hg2
  rw [hgn] at hh
  have hdom_sub : ∀ rn ∈ r2w.map Prod.fst, rn ∈ dkeys game.options := by
    intro rn hrn
    rw [hb] at hrn
    obtain ⟨p, hp, rfl⟩ := List.mem_map.mp hrn
    exact List.mem_map_of_mem Prod.fst
      (List.mem_of_mem_filter (List.mem_of_mem_filter hp))
  have hval_not_dom : ∀ wn ∈ r2w.map Prod.snd, wn ∉ r2w.map Prod.fst := by
    intro wn hwn hmem
    obtain ⟨-, j, -, rfl⟩ := hf wn hwn
    exact hfresh j (hdom_sub _ hmem)
  have hdom_nd : (r2w.map Prod.fst).Nodup := by
    rw [hb]
    exact ((List.filter_sublist _).map Prod.fst).nodup hfilter_nd
  obtain ⟨-, hval_mem, hdom_absent⟩ :=
    replace_wrapped_options_spec r2w game.options extra2.options opts' h4
      hnd hdom_nd hval_not_dom
  obtain ⟨hwrapfalse, hwraptrue⟩ :=
    obfuscate_game_wrap_ok gen game_name root extra_games pos game extra wt
      r2w extra2 pos2 opts' h1 h2 h3 h4
  refine ⟨hwraptrue rw h5, ?_, ?_, ?_, ?_⟩
  · intro t ht
    obtain ⟨rn, wn, hmem, -, hname, -⟩ := hh t ht
    rw [hname, dlookup_isSome_iff]
    exact hval_mem wn (List.mem_map_of_mem Prod.snd hmem)
  · intro rn hrn
    refine ⟨hdom_sub rn hrn, ?_⟩
    rw [dlookup_eq_none_iff]
    exact hdom_absent rn hrn
  · intro t ht
    obtain ⟨rn, wn, hmem, -, -, lbl, olbl, -, hopts⟩ := hh t ht
    refine ⟨rn, List.mem_map_of_mem Prod.fst hmem, ?_⟩
    rw [trigger_override_keys, hopts]
    simp [ValueMap.lookup, ValueMap.keys]
  · intro i hi hi' hcat wn hwn
    obtain ⟨hlen, hget⟩ := rewrite_triggers_spec game_name r2w extra2.options
      game.triggers rw h5
    have hok := hget i hi hi'
    have hname := rewrite_trigger_affected_name game_name r2w extra2.options
      (game.triggers.get ⟨i, hi⟩) (rw.get ⟨i, hi'⟩) wn hok hcat hwn
    refine ⟨hname, ?_⟩
    rw [dlookup_isSome_iff]
    have hpair := dlookup_mem r2w _ wn hwn
    exact hval_mem wn (List.mem_map_of_mem Prod.snd hpair)

/-- Witness for `C1_amended_trigger_resolution` on `exRootT` under
`genW`: the generated trigger resolves its wrapper name `w0`, while the
wrapped original `a` is removed and is exactly the generated trigger's
override key. -/
theorem C1_amended_trigger_resolution_witness :
    (obfuscate_game_wrap genW "g" true exRootT (build_extra_games exRootT.games []) 0 =
      .ok (with_game exRootT "g"
        (wrapped_game exGameT [("w0", exWrapped)] ([exTrigRootCat] ++ exWT)),
        dset (build_extra_games exRootT.games []) "g" exExtra2, 2)) ∧
    (dlookup [("w0", exWrapped)] exWT0.option_name).isSome = true ∧
    ("a" ∈ dkeys exGameT.options ∧ dlookup [("w0", exWrapped)] "a" = none) ∧
    trigger_override_keys "g" exWT0 = [.str "a"] := by
  have h := C1_amended_trigger_resolution genW "g" exRootT
    (build_extra_games exRootT.games []) 0 exGameT ⟨"g", [], []⟩ exWT
    [("a", "w0")] exExtra2 2 [("w0", exWrapped)] [exTrigRootCat]
    (by rfl) (by rfl) (by rfl) (by rfl) (by rfl) (by rfl) (by decide)
    (by
      intro p hp
      simp only [exGameT, List.mem_singleton] at hp
      subst hp
      decide)
    (by
      intro j
      show ¬ ("w" ++ toString j) ∈ dkeys exGameT.options
      intro hc
      have : "w" ++ toString j = "a" := by
        simpa [exGameT, dkeys] using hc
      have hdata := congrArg String.data this
      rw [String.data_append] at hdata
      simp at hdata)
  refine ⟨h.1, h.2.1 exWT0 (List.mem_cons_self _ _), h.2.2.1 "a" (by decide), ?_⟩
  obtain ⟨rn, hrn, hkeys⟩ := h.2.2.2.1 exWT0 (List.mem_cons_self _ _)
  have : rn = "a" := by
    simpa using hrn
  rw [hkeys, this]

/-! ### ValueMap (generic-value dict) lemmas -/

theorem vm_keys_cons (k v : Value) (tl : ValueMap) :
    (ValueMap.cons k v tl).keys = k :: tl.keys := rfl

theorem vm_lookup_cons (k v : Value) (tl : ValueMap) (k' : Value) :
    (ValueMap.cons k v tl).lookup k' =
      if k = k' then some v else tl.lookup k' := rfl

theorem vm_set_cons (mk mv : Value) (tl : ValueMap) (k v : Value) :
    (ValueMap.cons mk mv tl).set k v =
      if mk = k then ValueMap.cons mk v tl
      else ValueMap.cons mk mv (tl.set k v) := rfl

theorem vm_del_cons (mk mv : Value) (tl : ValueMap) (k : Value) :
    (ValueMap.cons mk mv tl).del k =
      if mk = k then tl else ValueMap.cons mk mv (tl.del k) := rfl

theorem vm_lookup_set_self :
    ∀ (m : ValueMap) (k v : Value), (m.set k v).lookup k = some v
  | .nil, k, v => by simp [ValueMap.set, ValueMap.lookup]
  | .cons mk mv tl, k, v => by
    rw [vm_set_cons]
    by_cases h : mk = k
    · rw [if_pos h, vm_lookup_cons, if_pos h]
    · rw [if_neg h, vm_lookup_cons, if_neg h]
      exact vm_lookup_set_self tl k v

theorem vm_lookup_set_ne :
    ∀ (m : ValueMap) (k v k' : Value), k' ≠ k →
      (m.set k v).lookup k' = m.lookup k'
  | .nil, k, v, k', hne => by
    show (ValueMap.cons k v .nil).lookup k' = ValueMap.nil.lookup k'
    rw [vm_lookup_cons, if_neg (fun hc => hne hc.symm)]
  | .cons mk mv tl, k, v, k', hne => by
    rw [vm_set_cons]
    by_cases h : mk = k
    · rw [if_pos h, vm_lookup_cons, vm_lookup_cons]
      subst h
      rw [if_neg (fun hc => hne hc.symm), if_neg (fun hc => hne hc.symm)]
    · rw [if_neg h, vm_lookup_cons, vm_lookup_cons]
      by_cases h2 : mk = k'
      · rw [if_pos h2, if_pos h2]
      · rw [if_neg h2, if_neg h2]
        exact vm_lookup_set_ne tl k v k' hne

theorem vm_lookup_del_ne :
    ∀ (m : ValueMap) (k k' : Value), k' ≠ k →
      (m.del k).lookup k' = m.lookup k'
  | .nil, _, _, _ => rfl
  | .cons mk mv tl, k, k', hne => by
    rw [vm_del_cons]
    by_cases h : mk = k
    · rw [if_pos h, vm_lookup_cons]
      subst h
      rw [if_neg (fun hc => hne hc.symm)]
    · rw [if_neg h, vm_lookup_cons, vm_lookup_cons]
      by_cases h2 : mk = k'
      · rw [if_pos h2, if_pos h2]
      · rw [if_neg h2, if_neg h2]
        exact vm_lookup_del_ne tl k k' hne

theorem vm_mem_keys_iff :
    ∀ (m : ValueMap) (k : Value), (m.lookup k).isSome = true ↔ k ∈ m.keys
  | .nil, k => by simp [ValueMap.lookup, ValueMap.keys]
  | .cons mk mv tl, k => by
    rw [vm_lookup_cons, vm_keys_cons, List.mem_cons]
    by_cases h : mk = k
    · subst h
      simp
    · rw [if_neg h, vm_mem_keys_iff tl k]
      constructor
      · exact Or.inr
      · rintro (h1 | hm)
        · exact absurd h1.symm h
        · exact hm

theorem vm_lookup_del_self :
    ∀ (m : ValueMap) (k : Value), m.keys.Nodup → (m.del k).lookup k = none
  | .nil, _, _ => rfl
  | .cons mk mv tl, k, hnd => by
    rw [vm_keys_cons, List.nodup_cons] at hnd
    rw [vm_del_cons]
    by_cases h : mk = k
    · rw [if_pos h]
      subst h
      cases hl : tl.lookup mk with
      | none => rfl
      | some v =>
        exact absurd ((vm_mem_keys_iff tl mk).mp (by rw [hl]; rfl)) hnd.1
    · rw [if_neg h, vm_lookup_cons, if_neg h]
      exact vm_lookup_del_self tl k hnd.2

theorem vm_keys_set_mem :
    ∀ (m : ValueMap) (k v k' : Value),
      k' ∈ (m.set k v).keys ↔ k' ∈ m.keys ∨ k' = k
  | .nil, k, v, k' => by simp [ValueMap.set, ValueMap.keys]
  | .cons mk mv tl, k, v, k' => by
    rw [vm_set_cons]
    by_cases h : mk = k
    · subst h
      rw [if_pos rfl]
      simp only [vm_keys_cons, List.mem_cons]
      tauto
    · rw [if_neg h]
      simp only [vm_keys_cons, List.mem_cons, vm_keys_set_mem tl k v k']
      tauto

theorem vm_keys_del_sub :
    ∀ (m : ValueMap) (k k' : Value), k' ∈ (m.del k).keys → k' ∈ m.keys
  | .nil, _, _, h => h
  | .cons mk mv tl, k, k', h => by
    rw [vm_del_cons] at h
    by_cases hc : mk = k
    · rw [if_pos hc] at h
      rw [vm_keys_cons]
      exact List.mem_cons_of_mem _ h
    · rw [if_neg hc, vm_keys_cons] at h
      rw [vm_keys_cons]
      rcases List.mem_cons.mp h with rfl | h
      · exact List.mem_cons_self _ _
      · exact List.mem_cons_of_mem _ (vm_keys_del_sub tl k k' h)

theorem vm_keys_set_nodup :
    ∀ (m : ValueMap) (k v : Value), m.keys.Nodup → (m.set k v).keys.Nodup
  | .nil, k, v, _ => by simp [ValueMap.set, ValueMap.keys]
  | .cons mk mv tl, k, v, hnd => by
    rw [vm_keys_cons, List.nodup_cons] at hnd
    rw [vm_set_cons]
    by_cases h : mk = k
    · rw [if_pos h, vm_keys_cons, List.nodup_cons]
      exact hnd
    · rw [if_neg h, vm_keys_cons, List.nodup_cons]
      refine ⟨?_, vm_keys_set_nodup tl k v hnd.2⟩
      intro hmem
      rcases (vm_keys_set_mem tl k v mk).mp hmem with hmem | rfl
      · exact hnd.1 hmem
      · exact h rfl

theorem vm_keys_del_nodup :
    ∀ (m : ValueMap) (k : Value), m.keys.Nodup → (m.del k).keys.Nodup
  | .nil, _, _ => List.nodup_nil
  | .cons mk mv tl, k, hnd => by
    rw [vm_keys_cons, List.nodup_cons] at hnd
    rw [vm_del_cons]
    by_cases h : mk = k
    · rw [if_pos h]
      exact hnd.2
    · rw [if_neg h, vm_keys_cons, List.nodup_cons]
      exact ⟨fun hmem => hnd.1 (vm_keys_del_sub tl k mk hmem),
        vm_keys_del_nodup tl k hnd.2⟩

theorem vm_entries_fst : ∀ (m : ValueMap), m.entries.map Prod.fst = m.keys
  | .nil => rfl
  | .cons mk mv tl => by
    rw [ValueMap.entries, List.map_cons, vm_entries_fst tl, vm_keys_cons]

theorem vm_entries_lookup :
    ∀ (m : ValueMap) (k v : Value), m.keys.Nodup → (k, v) ∈ m.entries →
      m.lookup k = some v
  | .nil, k, v, _, h => by cases h
  | .cons mk mv tl, k, v, hnd, hm => by
    rw [vm_keys_cons, List.nodup_cons] at hnd
    rw [ValueMap.entries] at hm
    rw [vm_lookup_cons]
    rcases List.mem_cons.mp hm with heq | hm
    · obtain ⟨rfl, rfl⟩ : mk = k ∧ mv = v := by
        cases heq; exact ⟨rfl, rfl⟩
      rw [if_pos rfl]
    · by_cases h : mk = k
      · subst h
        exact absurd (by
          rw [← vm_entries_fst]
          exact List.mem_map_of_mem Prod.fst hm) hnd.1
      · rw [if_neg h]
        exact vm_entries_lookup tl k v hnd.2 hm

theorem vm_lookup_del_none :
    ∀ (m : ValueMap) (a k : Value), m.lookup k = none → (m.del a).lookup k = none
  | .nil, _, _, _ => rfl
  | .cons mk mv tl, a, k, h => by
    rw [vm_lookup_cons] at h
    by_cases hmk : mk = k
    · rw [if_pos hmk] at h
      cases h
    · rw [if_neg hmk] at h
      rw [vm_del_cons]
      by_cases ha : mk = a
      · rw [if_pos ha]
        exact h
      · rw [if_neg ha, vm_lookup_cons, if_neg hmk]
        exact vm_lookup_del_none tl a k h

/-! ### rename_weights characterization (label substitution) -/

theorem rename_weights_lookup_pres (nwn : List (String × String)) :
    ∀ (snapshot : List (Value × Value)) (cur : ValueMap) (k : Value),
      (∀ p ∈ snapshot, ∀ ls ls', p.1 = .str ls → dlookup nwn ls = some ls' →
        k ≠ .str ls ∧ k ≠ .str ls') →
      (rename_weights nwn snapshot cur).lookup k = cur.lookup k := by
  intro snapshot
  induction snapshot with
  | nil => intro cur k _; rfl
  | cons p rest ih =>
    intro cur k hk
    obtain ⟨pk, pv⟩ := p
    by_cases hstr : ∃ s, pk = Value.str s
    · obtain ⟨s, rfl⟩ := hstr
      cases hl : dlookup nwn s with
      | some nn =>
        rw [show rename_weights nwn ((Value.str s, pv) :: rest) cur =
          rename_weights nwn rest ((cur.del (.str s)).set (.str nn) pv) from by
            simp [rename_weights, hl]]
        obtain ⟨hk1, hk2⟩ := hk (Value.str s, pv) (List.mem_cons_self _ _) s nn rfl hl
        rw [ih _ k (fun q hq => hk q (List.mem_cons_of_mem _ hq)),
          vm_lookup_set_ne _ _ _ _ hk2, vm_lookup_del_ne _ _ _ hk1]
      | none =>
        rw [show rename_weights nwn ((Value.str s, pv) :: rest) cur =
          rename_weights nwn rest cur from by simp [rename_weights, hl]]
        exact ih cur k (fun q hq => hk q (List.mem_cons_of_mem _ hq))
    · have hns : ∀ s, pk ≠ Value.str s := fun s hc => hstr ⟨s, hc⟩
      have hstep : rename_weights nwn ((pk, pv) :: rest) cur =
          rename_weights nwn rest cur := by
        cases pk <;> first | exact absurd rfl (hns _) | rfl
      rw [hstep]
      exact ih cur k (fun q hq => hk q (List.mem_cons_of_mem _ hq))

theorem rename_weights_lookup_absent (nwn : List (String × String)) :
    ∀ (snapshot : List (Value × Value)) (cur : ValueMap) (k : Value),
      cur.lookup k = none →
      (∀ p ∈ snapshot, ∀ ls ls', p.1 = .str ls → dlookup nwn ls = some ls' →
        k ≠ .str ls') →
      (rename_weights nwn snapshot cur).lookup k = none := by
  intro snapshot
  induction snapshot with
  | nil => intro cur k h _; exact h
  | cons p rest ih =>
    intro cur k hnone hk
    obtain ⟨pk, pv⟩ := p
    by_cases hstr : ∃ s, pk = Value.str s
    · obtain ⟨s, rfl⟩ := hstr
      cases hl : dlookup nwn s with
      | some nn =>
        rw [show rename_weights nwn ((Value.str s, pv) :: rest) cur =
          rename_weights nwn rest ((cur.del (.str s)).set (.str nn) pv) from by
            simp [rename_weights, hl]]
        refine ih _ k ?_ (fun q hq => hk q (List.mem_cons_of_mem _ hq))
        have hknn : k ≠ Value.str nn :=
          hk (Value.str s, pv) (List.mem_cons_self _ _) s nn rfl hl
        rw [vm_lookup_set_ne _ _ _ _ hknn]
        exact vm_lookup_del_none cur _ k hnone
      | none =>
        rw [show rename_weights nwn ((Value.str s, pv) :: rest) cur =
          rename_weights nwn rest cur from by simp [rename_weights, hl]]
        exact ih cur k hnone (fun q hq => hk q (List.mem_cons_of_mem _ hq))
    · have hns : ∀ s, pk ≠ Value.str s := fun s hc => hstr ⟨s, hc⟩
      have hstep : rename_weights nwn ((pk, pv) :: rest) cur =
          rename_weights nwn rest cur := by
        cases pk <;> first | exact absurd rfl (hns _) | rfl
      rw [hstep]
      exact ih cur k hnone (fun q hq => hk q (List.mem_cons_of_mem _ hq))

theorem rename_weights_spec (nwn : List (String × String)) :
    ∀ (snapshot : List (Value × Value)) (cur : ValueMap),
      cur.keys.Nodup →
      (∀ p ∈ snapshot, cur.lookup p.1 = some p.2) →
      (snapshot.map Prod.fst).Nodup →
      (∀ ls ls', (Value.str ls) ∈ snapshot.map Prod.fst →
        dlookup nwn ls = some ls' → (Value.str ls') ∉ cur.keys) →
      (∀ ls1 ls2 ls', (Value.str ls1) ∈ snapshot.map Prod.fst →
        (Value.str ls2) ∈ snapshot.map Prod.fst →
        dlookup nwn ls1 = some ls' → dlookup nwn ls2 = some ls' → ls1 = ls2) →
      ∀ (k v : Value), (k, v) ∈ snapshot →
        (∀ ls, k = .str ls → ∀ ls', dlookup nwn ls = some ls' →
          (rename_weights nwn snapshot cur).lookup (.str ls') = some v ∧
          (rename_weights nwn snapshot cur).lookup (.str ls) = none) ∧
        ((∀ ls, k = .str ls → dlookup nwn ls = none) →
          (rename_weights nwn snapshot cur).lookup k = some v) := by
  intro snapshot
  induction snapshot with
  | nil =>
    intro cur _ _ _ _ _ k v hkv
    cases hkv
  | cons p rest ih =>
    intro cur hnd hsnap hsnd hfr hinj k v hkv
    obtain ⟨pk, pv⟩ := p
    rw [List.map_cons, List.nodup_cons] at hsnd
    have hheadmem : pk ∈ cur.keys := by
      rw [← vm_mem_keys_iff, hsnap (pk, pv) (List.mem_cons_self _ _)]
      rfl
    have hrestmem : ∀ q ∈ rest, q.1 ∈ cur.keys := by
      intro q hq
      rw [← vm_mem_keys_iff, hsnap q (List.mem_cons_of_mem _ hq)]
      rfl
    have hrest_ne_head : ∀ q ∈ rest, q.1 ≠ pk := by
      intro q hq hc
      have hmm := List.mem_map_of_mem Prod.fst hq
      rw [hc] at hmm
      exact hsnd.1 hmm
    by_cases hstr : ∃ s, pk = Value.str s
    · obtain ⟨s, rfl⟩ := hstr
      cases hl : dlookup nwn s with
      | some nn =>
        have hnn_notin : (Value.str nn) ∉ cur.keys := hfr s nn (by simp) hl
        have hsnn : Value.str s ≠ Value.str nn := fun hc => hnn_notin (hc ▸ hheadmem)
        have hstep : rename_weights nwn ((Value.str s, pv) :: rest) cur =
            rename_weights nwn rest ((cur.del (.str s)).set (.str nn) pv) := by
          simp [rename_weights, hl]
        have hcur1_nd : ((cur.del (.str s)).set (.str nn) pv).keys.Nodup :=
          vm_keys_set_nodup _ _ _ (vm_keys_del_nodup cur _ hnd)
        have hcur1_keys : ∀ k', k' ∈ ((cur.del (.str s)).set (.str nn) pv).keys →
            k' ∈ cur.keys ∨ k' = Value.str nn := by
          intro k' hk'
          rcases (vm_keys_set_mem _ _ _ k').mp hk' with hk' | rfl
          · exact Or.inl (vm_keys_del_sub cur _ k' hk')
          · exact Or.inr rfl
        have hrest_ne_nn : ∀ q ∈ rest, q.1 ≠ Value.str nn := by
          intro q hq hc
          exact hnn_notin (hc ▸ hrestmem q hq)
        -- the pres-lemma side condition for the new name
        have hpres_nn : ∀ q ∈ rest, ∀ ls0 ls0', q.1 = .str ls0 →
            dlookup nwn ls0 = some ls0' →
            (Value.str nn) ≠ .str ls0 ∧ (Value.str nn) ≠ .str ls0' := by
          intro q hq ls0 ls0' hq1 hq2
          constructor
          · intro hc
            apply hnn_notin
            rw [hc, ← hq1]
            exact hrestmem q hq
          · intro hc
            have hnn0 : nn = ls0' := by cases hc; rfl
            have hmem0 : (Value.str ls0) ∈ ((Value.str s, pv) :: rest).map Prod.fst := by
              rw [← hq1]
              exact List.mem_map_of_mem Prod.fst (List.mem_cons_of_mem _ hq)
            have : ls0 = s := hinj ls0 s nn hmem0 (by simp)
              (by rw [hq2, hnn0]) hl
            apply hrest_ne_head q hq
            rw [hq1, this]
        -- the abs-lemma side condition for the deleted original name
        have habs_s : ∀ q ∈ rest, ∀ ls0 ls0', q.1 = .str ls0 →
            dlookup nwn ls0 = some ls0' → (Value.str s) ≠ .str ls0' := by
          intro q hq ls0 ls0' hq1 hq2 hc
          apply hfr ls0 ls0'
            (by rw [← hq1]; exact List.mem_map_of_mem Prod.fst (List.mem_cons_of_mem _ hq)) hq2
          rw [← hc]
          exact hheadmem
        have hsnap1 : ∀ q ∈ rest,
            ((cur.del (.str s)).set (.str nn) pv).lookup q.1 = some q.2 := by
          intro q hq
          rw [vm_lookup_set_ne _ _ _ _ (hrest_ne_nn q hq),
            vm_lookup_del_ne _ _ _ (hrest_ne_head q hq)]
          exact hsnap q (List.mem_cons_of_mem _ hq)
        have hfr1 : ∀ ls ls', (Value.str ls) ∈ rest.map Prod.fst →
            dlookup nwn ls = some ls' →
            (Value.str ls') ∉ ((cur.del (.str s)).set (.str nn) pv).keys := by
          intro ls ls' hls hls' hmem
          rcases hcur1_keys _ hmem with hmem | heq
          · exact hfr ls ls' (List.mem_cons_of_mem _ hls) hls' hmem
          · have hc : ls' = nn := by cases heq; rfl
            have : ls = s := hinj ls s nn (List.mem_cons_of_mem _ hls)
              (by simp) (by rw [hls', hc]) hl
            apply hsnd.1
            rw [← this]
            exact hls
        have hinj1 : ∀ ls1 ls2 ls', (Value.str ls1) ∈ rest.map Prod.fst →
            (Value.str ls2) ∈ rest.map Prod.fst →
            dlookup nwn ls1 = some ls' → dlookup nwn ls2 = some ls' →
            ls1 = ls2 := fun ls1 ls2 ls' h1 h2 h3 h4 =>
          hinj ls1 ls2 ls' (List.mem_cons_of_mem _ h1)
            (List.mem_cons_of_mem _ h2) h3 h4
        rcases List.mem_cons.mp hkv with heq | hkv'
        · obtain ⟨rfl, rfl⟩ : k = Value.str s ∧ v = pv := by
            cases heq; exact ⟨rfl, rfl⟩
          constructor
          · intro ls hls ls' hls'
            obtain rfl : ls = s := by cases hls; rfl
            obtain rfl : ls' = nn := by rw [hl] at hls'; cases hls'; rfl
            rw [hstep]
            constructor
            · rw [rename_weights_lookup_pres nwn rest _ (.str ls') hpres_nn]
              exact vm_lookup_set_self _ _ _
            · refine rename_weights_lookup_absent nwn rest _ (.str ls) ?_ habs_s
              rw [vm_lookup_set_ne _ _ _ _ hsnn]
              exact vm_lookup_del_self cur _ hnd
          · intro hb
            rw [hb s rfl] at hl
            cases hl
        · have hres := ih ((cur.del (.str s)).set (.str nn) pv) hcur1_nd hsnap1
            hsnd.2 hfr1 hinj1 k v hkv'
          rw [hstep]
          exact hres
      | none =>
        have hstep : rename_weights nwn ((Value.str s, pv) :: rest) cur =
            rename_weights nwn rest cur := by
          simp [rename_weights, hl]
        rcases List.mem_cons.mp hkv with heq | hkv'
        · obtain ⟨rfl, rfl⟩ : k = Value.str s ∧ v = pv := by
            cases heq; exact ⟨rfl, rfl⟩
          constructor
          · intro ls hls ls' hls'
            obtain rfl : ls = s := by cases hls; rfl
            rw [hl] at hls'
            cases hls'
          · intro _
            rw [hstep]
            rw [rename_weights_lookup_pres nwn rest cur (.str s) ?_]
            · exact hsnap (Value.str s, v) (List.mem_cons_self _ _)
            · intro q hq ls0 ls0' hq1 hq2
              refine ⟨?_, ?_⟩
              · intro hc
                apply hrest_ne_head q hq
                rw [hq1, ← hc]
              · intro hc
                apply hfr ls0 ls0'
                  (by rw [← hq1]; exact List.mem_map_of_mem Prod.fst (List.mem_cons_of_mem _ hq)) hq2
                rw [← hc]
                exact hheadmem
        · have hres := ih cur hnd
            (fun q hq => hsnap q (List.mem_cons_of_mem _ hq)) hsnd.2
            (fun ls ls' hls hls' => hfr ls ls' (List.mem_cons_of_mem _ hls) hls')
            (fun ls1 ls2 ls' h1 h2 h3 h4 => hinj ls1 ls2 ls'
              (List.mem_cons_of_mem _ h1) (List.mem_cons_of_mem _ h2) h3 h4)
            k v hkv'
          rw [hstep]
          exact hres
    · have hns : ∀ s, pk ≠ Value.str s := fun s hc => hstr ⟨s, hc⟩
      have hstep : rename_weights nwn ((pk, pv) :: rest) cur =
          rename_weights nwn rest cur := by
        cases pk <;> first | exact absurd rfl (hns _) | rfl
      rcases List.mem_cons.mp hkv with heq | hkv'
      · obtain ⟨rfl, rfl⟩ : k = pk ∧ v = pv := by
          cases heq; exact ⟨rfl, rfl⟩
        constructor
        · intro ls hls
          exact absurd hls (hns ls)
        · intro _
          rw [hstep]
          rw [rename_weights_lookup_pres nwn rest cur k ?_]
          · exact hsnap (k, v) (List.mem_cons_self _ _)
          · intro q hq ls0 ls0' hq1 hq2
            refine ⟨?_, ?_⟩
            · intro hc
              apply hrest_ne_head q hq
              rw [hq1, ← hc]
            · intro hc
              apply hfr ls0 ls0'
                (by rw [← hq1]; exact List.mem_map_of_mem Prod.fst (List.mem_cons_of_mem _ hq)) hq2
              rw [← hc]
              exact hheadmem
      · have hres := ih cur hnd
          (fun q hq => hsnap q (List.mem_cons_of_mem _ hq)) hsnd.2
          (fun ls ls' hls hls' => hfr ls ls' (List.mem_cons_of_mem _ hls) hls')
          (fun ls1 ls2 ls' h1 h2 h3 h4 => hinj ls1 ls2 ls'
            (List.mem_cons_of_mem _ h1) (List.mem_cons_of_mem _ h2) h3 h4)
          k v hkv'
        rw [hstep]
        exact hres

/-! ### rewrite_trigger_options characterization (override substitution) -/

theorem rewrite_trigger_options_lookup_pres (game_name : String)
    (r2w : List (String × String)) (extraOptions : List (String × ApOption)) :
    ∀ (snapshot : List (Value × Value)) (cur cur' : ValueMap) (k : Value),
      rewrite_trigger_options game_name r2w extraOptions snapshot cur = .ok cur' →
      (∀ p ∈ snapshot, ∀ s wns, p.1 = .str s → dlookup r2w s = some wns →
        k ≠ .str s ∧ k ≠ .str wns) →
      cur'.lookup k = cur.lookup k := by
  intro snapshot
  induction snapshot with
  | nil =>
    intro cur cur' k h _
    cases h
    rfl
  | cons p rest ih =>
    intro cur cur' k h hk
    obtain ⟨pk, wv⟩ := p
    by_cases hstr : ∃ s, pk = Value.str s
    · obtain ⟨s, rfl⟩ := hstr
      cases hl : dlookup r2w s with
      | none =>
        rw [show rewrite_trigger_options game_name r2w extraOptions
            ((Value.str s, wv) :: rest) cur =
          rewrite_trigger_options game_name r2w extraOptions rest cur from by
            simp [rewrite_trigger_options, hl]] at h
        exact ih cur cur' k h (fun q hq => hk q (List.mem_cons_of_mem _ hq))
      | some wns =>
        obtain ⟨hk1, hk2⟩ := hk (Value.str s, wv) (List.mem_cons_self _ _) s wns rfl hl
        cases hlo : dlookup extraOptions wns with
        | none =>
          rw [show rewrite_trigger_options game_name r2w extraOptions
              ((Value.str s, wv) :: rest) cur = .error (.keyError wns) from by
            simp [rewrite_trigger_options, hl, hlo]] at h
          cases h
        | some o =>
          cases o with
          | weighted w =>
            rw [show rewrite_trigger_options game_name r2w extraOptions
                ((Value.str s, wv) :: rest) cur =
              .error (.assertionError "isinstance(wrapped_option, WrappedWeightedOption)") from by
                simp [rewrite_trigger_options, hl, hlo]] at h
            cases h
          | custom raw =>
            rw [show rewrite_trigger_options game_name r2w extraOptions
                ((Value.str s, wv) :: rest) cur =
              .error (.assertionError "isinstance(wrapped_option, WrappedWeightedOption)") from by
                simp [rewrite_trigger_options, hl, hlo]] at h
            cases h
          | wrapped w oo on0 nwn =>
            rw [show rewrite_trigger_options game_name r2w extraOptions
                ((Value.str s, wv) :: rest) cur =
              rewrite_trigger_options game_name r2w extraOptions rest
                ((cur.del (.str s)).set (.str wns)
                  (.dict (rename_weights nwn (normalize_weights_value wv).entries
                    (normalize_weights_value wv)))) from by
                simp [rewrite_trigger_options, hl, hlo]] at h
            rw [ih _ cur' k h (fun q hq => hk q (List.mem_cons_of_mem _ hq)),
              vm_lookup_set_ne _ _ _ _ hk2, vm_lookup_del_ne _ _ _ hk1]
    · have hns : ∀ s, pk ≠ Value.str s := fun s hc => hstr ⟨s, hc⟩
      have hstep : rewrite_trigger_options game_name r2w extraOptions
          ((pk, wv) :: rest) cur =
          rewrite_trigger_options game_name r2w extraOptions rest cur := by
        cases pk <;> first | exact absurd rfl (hns _) | rfl
      rw [hstep] at h
      exact ih cur cur' k h (fun q hq => hk q (List.mem_cons_of_mem _ hq))

theorem rewrite_trigger_options_lookup_absent (game_name : String)
    (r2w : List (String × String)) (extraOptions : List (String × ApOption)) :
    ∀ (snapshot : List (Value × Value)) (cur cur' : ValueMap) (k : Value),
      rewrite_trigger_options game_name r2w extraOptions snapshot cur = .ok cur' →
      cur.lookup k = none →
      (∀ p ∈ snapshot, ∀ s wns, p.1 = .str s → dlookup r2w s = some wns →
        k ≠ .str wns) →
      cur'.lookup k = none := by
  intro snapshot
  induction snapshot with
  | nil =>
    intro cur cur' k h hnone _
    cases h
    exact hnone
  | cons p rest ih =>
    intro cur cur' k h hnone hk
    obtain ⟨pk, wv⟩ := p
    by_cases hstr : ∃ s, pk = Value.str s
    · obtain ⟨s, rfl⟩ := hstr
      cases hl : dlookup r2w s with
      | none =>
        rw [show rewrite_trigger_options game_name r2w extraOptions
            ((Value.str s, wv) :: rest) cur =
          rewrite_trigger_options game_name r2w extraOptions rest cur from by
            simp [rewrite_trigger_options, hl]] at h
        exact ih cur cur' k h hnone (fun q hq => hk q (List.mem_cons_of_mem _ hq))
      | some wns =>
        have hk2 : k ≠ Value.str wns :=
          hk (Value.str s, wv) (List.mem_cons_self _ _) s wns rfl hl
        cases hlo : dlookup extraOptions wns with
        | none =>
          rw [show rewrite_trigger_options game_name r2w extraOptions
              ((Value.str s, wv) :: rest) cur = .error (.keyError wns) from by
            simp [rewrite_trigger_options, hl, hlo]] at h
          cases h
        | some o =>
          cases o with
          | weighted w =>
            rw [show rewrite_trigger_options game_name r2w extraOptions
                ((Value.str s, wv) :: rest) cur =
              .error (.assertionError "isinstance(wrapped_option, WrappedWeightedOption)") from by
                simp [rewrite_trigger_options, hl, hlo]] at h
            cases h
          | custom raw =>
            rw [show rewrite_trigger_options game_name r2w extraOptions
                ((Value.str s, wv) :: rest) cur =
              .error (.assertionError "isinstance(wrapped_option, WrappedWeightedOption)") from by
                simp [rewrite_trigger_options, hl, hlo]] at h
            cases h
          | wrapped w oo on0 nwn =>
            rw [show rewrite_trigger_options game_name r2w extraOptions
                ((Value.str s, wv) :: rest) cur =
              rewrite_trigger_options game_name r2w extraOptions rest
                ((cur.del (.str s)).set (.str wns)
                  (.dict (rename_weights nwn (normalize_weights_value wv).entries
                    (normalize_weights_value wv)))) from by
                simp [rewrite_trigger_options, hl, hlo]] at h
            refine ih _ cur' k h ?_ (fun q hq => hk q (List.mem_cons_of_mem _ hq))
            rw [vm_lookup_set_ne _ _ _ _ hk2]
            exact vm_lookup_del_none cur _ k hnone
    · have hns : ∀ s, pk ≠ Value.str s := fun s hc => hstr ⟨s, hc⟩
      have hstep : rewrite_trigger_options game_name r2w extraOptions
          ((pk, wv) :: rest) cur =
          rewrite_trigger_options game_name r2w extraOptions rest cur := by
        cases pk <;> first | exact absurd rfl (hns _) | rfl
      rw [hstep] at h
      exact ih cur cur' k h hnone (fun q hq => hk q (List.mem_cons_of_mem _ hq))

theorem rewrite_trigger_options_spec (game_name : String)
    (r2w : List (String × String)) (extraOptions : List (String × ApOption)) :
    ∀ (snapshot : List (Value × Value)) (cur cur' : ValueMap),
      rewrite_trigger_options game_name r2w extraOptions snapshot cur = .ok cur' →
      cur.keys.Nodup →
      (∀ p ∈ snapshot, cur.lookup p.1 = some p.2) →
      (snapshot.map Prod.fst).Nodup →
      (∀ s wns, (Value.str s) ∈ snapshot.map Prod.fst → dlookup r2w s = some wns →
        (Value.str wns) ∉ cur.keys) →
      (∀ s1 s2 wns, (Value.str s1) ∈ snapshot.map Prod.fst →
        (Value.str s2) ∈ snapshot.map Prod.fst →
        dlookup r2w s1 = some wns → dlookup r2w s2 = some wns → s1 = s2) →
      ∀ (k v : Value), (k, v) ∈ snapshot →
        (∀ s, k = .str s → ∀ wns, dlookup r2w s = some wns →
          ∀ w oo on0 nwn, dlookup extraOptions wns = some (.wrapped w oo on0 nwn) →
            cur'.lookup (.str wns) =
              some (.dict (rename_weights nwn (normalize_weights_value v).entries
                (normalize_weights_value v))) ∧
            cur'.lookup (.str s) = none) ∧
        ((∀ s, k = .str s → dlookup r2w s = none) → cur'.lookup k = some v) := by
  intro snapshot
  induction snapshot with
  | nil =>
    intro cur cur' _ _ _ _ _ _ k v hkv
    cases hkv
  | cons p rest ih =>
    intro cur cur' h hnd hsnap hsnd hfr hinj k v hkv
    obtain ⟨pk, wv⟩ := p
    rw [List.map_cons, List.nodup_cons] at hsnd
    have hheadmem : pk ∈ cur.keys := by
      rw [← vm_mem_keys_iff, hsnap (pk, wv) (List.mem_cons_self _ _)]
      rfl
    have hrestmem : ∀ q ∈ rest, q.1 ∈ cur.keys := by
      intro q hq
      rw [← vm_mem_keys_iff, hsnap q (List.mem_cons_of_mem _ hq)]
      rfl
    have hrest_ne_head : ∀ q ∈ rest, q.1 ≠ pk := by
      intro q hq hc
      have hmm := List.mem_map_of_mem Prod.fst hq
      rw [hc] at hmm
      exact hsnd.1 hmm
    by_cases hstr : ∃ s, pk = Value.str s
    · obtain ⟨s, rfl⟩ := hstr
      cases hl : dlookup r2w s with
      | some wns0 =>
        have hwns_notin : (Value.str wns0) ∉ cur.keys := hfr s wns0 (by simp) hl
        have hswns : Value.str s ≠ Value.str wns0 :=
          fun hc => hwns_notin (hc ▸ hheadmem)
        cases hlo : dlookup extraOptions wns0 with
        | none =>
          rw [show rewrite_trigger_options game_name r2w extraOptions
              ((Value.str s, wv) :: rest) cur = .error (.keyError wns0) from by
            simp [rewrite_trigger_options, hl, hlo]] at h
          cases h
        | some o =>
          cases o with
          | weighted w =>
            rw [show rewrite_trigger_options game_name r2w extraOptions
                ((Value.str s, wv) :: rest) cur =
              .error (.assertionError "isinstance(wrapped_option, WrappedWeightedOption)") from by
                simp [rewrite_trigger_options, hl, hlo]] at h
            cases h
          | custom raw =>
            rw [show rewrite_trigger_options game_name r2w extraOptions
                ((Value.str s, wv) :: rest) cur =
              .error (.assertionError "isinstance(wrapped_option, WrappedWeightedOption)") from by
                simp [rewrite_trigger_options, hl, hlo]] at h
            cases h
          | wrapped w0 oo0 on00 nwn0 =>
            rw [show rewrite_trigger_options game_name r2w extraOptions
                ((Value.str s, wv) :: rest) cur =
              rewrite_trigger_options game_name r2w extraOptions rest
                ((cur.del (.str s)).set (.str wns0)
                  (.dict (rename_weights nwn0 (normalize_weights_value wv).entries
                    (normalize_weights_value wv)))) from by
                simp [rewrite_trigger_options, hl, hlo]] at h
            have hcur1_nd : ((cur.del (.str s)).set (.str wns0)
                (Value.dict (rename_weights nwn0 (normalize_weights_value wv).entries
                  (normalize_weights_value wv)))).keys.Nodup :=
              vm_keys_set_nodup _ _ _ (vm_keys_del_nodup cur _ hnd)
            have hcur1_keys : ∀ k', k' ∈ ((cur.del (.str s)).set (.str wns0)
                (Value.dict (rename_weights nwn0 (normalize_weights_value wv).entries
                  (normalize_weights_value wv)))).keys →
                k' ∈ cur.keys ∨ k' = Value.str wns0 := by
              intro k' hk'
              rcases (vm_keys_set_mem _ _ _ k').mp hk' with hk' | rfl
              · exact Or.inl (vm_keys_del_sub cur _ k' hk')
              · exact Or.inr rfl
            have hrest_ne_wns : ∀ q ∈ rest, q.1 ≠ Value.str wns0 := by
              intro q hq hc
              exact hwns_notin (hc ▸ hrestmem q hq)
            have hpres_wns : ∀ q ∈ rest, ∀ ls0 ls0', q.1 = .str ls0 →
                dlookup r2w ls0 = some ls0' →
                (Value.str wns0) ≠ .str ls0 ∧ (Value.str wns0) ≠ .str ls0' := by
              intro q hq ls0 ls0' hq1 hq2
              constructor
              · intro hc
                apply hwns_notin
                rw [hc, ← hq1]
                exact hrestmem q hq
              · intro hc
                have hwns0 : wns0 = ls0' := by cases hc; rfl
                have hmem0 : (Value.str ls0) ∈
                    ((Value.str s, wv) :: rest).map Prod.fst := by
                  rw [← hq1]
                  exact List.mem_map_of_mem Prod.fst (List.mem_cons_of_mem _ hq)
                have : ls0 = s := hinj ls0 s wns0 hmem0 (by simp)
                  (by rw [hq2, hwns0]) hl
                apply hrest_ne_head q hq
                rw [hq1, this]
            have habs_s : ∀ q ∈ rest, ∀ ls0 ls0', q.1 = .str ls0 →
                dlookup r2w ls0 = some ls0' → (Value.str s) ≠ .str ls0' := by
              intro q hq ls0 ls0' hq1 hq2 hc
              apply hfr ls0 ls0'
                (by rw [← hq1]; exact List.mem_map_of_mem Prod.fst (List.mem_cons_of_mem _ hq)) hq2
              rw [← hc]
              exact hheadmem
            have hsnap1 : ∀ q ∈ rest,
                ((cur.del (.str s)).set (.str wns0)
                  (Value.dict (rename_weights nwn0 (normalize_weights_value wv).entries
                    (normalize_weights_value wv)))).lookup q.1 = some q.2 := by
              intro q hq
              rw [vm_lookup_set_ne _ _ _ _ (hrest_ne_wns q hq),
                vm_lookup_del_ne _ _ _ (hrest_ne_head q hq)]
              exact hsnap q (List.mem_cons_of_mem _ hq)
            have hfr1 : ∀ ls ls', (Value.str ls) ∈ rest.map Prod.fst →
                dlookup r2w ls = some ls' →
                (Value.str ls') ∉ ((cur.del (.str s)).set (.str wns0)
                  (Value.dict (rename_weights nwn0 (normalize_weights_value wv).entries
                    (normalize_weights_value wv)))).keys := by
              intro ls ls' hls hls' hmem
              rcases hcur1_keys _ hmem with hmem | heq
              · exact hfr ls ls' (List.mem_cons_of_mem _ hls) hls' hmem
              · have hc : ls' = wns0 := by cases heq; rfl
                have : ls = s := hinj ls s wns0 (List.mem_cons_of_mem _ hls)
                  (by simp) (by rw [hls', hc]) hl
                apply hsnd.1
                rw [← this]
                exact hls
            have hinj1 : ∀ ls1 ls2 ls', (Value.str ls1) ∈ rest.map Prod.fst →
                (Value.str ls2) ∈ rest.map Prod.fst →
                dlookup r2w ls1 = some ls' → dlookup r2w ls2 = some ls' →
                ls1 = ls2 := fun ls1 ls2 ls' h1 h2 h3 h4 =>
              hinj ls1 ls2 ls' (List.mem_cons_of_mem _ h1)
                (List.mem_cons_of_mem _ h2) h3 h4
            rcases List.mem_cons.mp hkv with heq | hkv'
            · obtain ⟨rfl, rfl⟩ : k = Value.str s ∧ v = wv := by
                cases heq; exact ⟨rfl, rfl⟩
              constructor
              · intro ls hls wns hwns w oo on0 nwn hlo2
                obtain rfl : ls = s := by cases hls; rfl
                obtain rfl : wns = wns0 := by rw [hl] at hwns; cases hwns; rfl
                obtain rfl : nwn = nwn0 := by rw [hlo] at hlo2; cases hlo2; rfl
                constructor
                · rw [rewrite_trigger_options_lookup_pres game_name r2w
                    extraOptions rest _ cur' (.str wns) h hpres_wns]
                  exact vm_lookup_set_self _ _ _
                · refine rewrite_trigger_options_lookup_absent game_name r2w
                    extraOptions rest _ cur' (.str ls) h ?_ habs_s
                  rw [vm_lookup_set_ne _ _ _ _ hswns]
                  exact vm_lookup_del_self cur _ hnd
              · intro hb
                rw [hb s rfl] at hl
                cases hl
            · exact ih _ cur' h hcur1_nd hsnap1 hsnd.2 hfr1 hinj1 k v hkv'
      | none =>
        rw [show rewrite_trigger_options game_name r2w extraOptions
            ((Value.str s, wv) :: rest) cur =
          rewrite_trigger_options game_name r2w extraOptions rest cur from by
            simp [rewrite_trigger_options, hl]] at h
        rcases List.mem_cons.mp hkv with heq | hkv'
        · obtain ⟨rfl, rfl⟩ : k = Value.str s ∧ v = wv := by
            cases heq; exact ⟨rfl, rfl⟩
          constructor
          · intro ls hls wns hwns w oo on0 nwn hlo2
            obtain rfl : ls = s := by cases hls; rfl
            rw [hl] at hwns
            cases hwns
          · intro _
            rw [rewrite_trigger_options_lookup_pres game_name r2w extraOptions
              rest cur cur' (.str s) h ?_]
            · exact hsnap (Value.str s, v) (List.mem_cons_self _ _)
            · intro q hq ls0 ls0' hq1 hq2
              refine ⟨?_, ?_⟩
              · intro hc
                apply hrest_ne_head q hq
                rw [hq1, ← hc]
              · intro hc
                apply hfr ls0 ls0'
                  (by rw [← hq1]; exact List.mem_map_of_mem Prod.fst (List.mem_cons_of_mem _ hq)) hq2
                rw [← hc]
                exact hheadmem
        · exact ih cur cur' h hnd
            (fun q hq => hsnap q (List.mem_cons_of_mem _ hq)) hsnd.2
            (fun ls ls' hls hls' => hfr ls ls' (List.mem_cons_of_mem _ hls) hls')
            (fun ls1 ls2 ls' h1 h2 h3 h4 => hinj ls1 ls2 ls'
              (List.mem_cons_of_mem _ h1) (List.mem_cons_of_mem _ h2) h3 h4)
            k v hkv'
    · have hns : ∀ s, pk ≠ Value.str s := fun s hc => hstr ⟨s, hc⟩
      have hstep : rewrite_trigger_options game_name r2w extraOptions
          ((pk, wv) :: rest) cur =
          rewrite_trigger_options game_name r2w extraOptions rest cur := by
        cases pk <;> first | exact absurd rfl (hns _) | rfl
      rw [hstep] at h
      rcases List.mem_cons.mp hkv with heq | hkv'
      · obtain ⟨rfl, rfl⟩ : k = pk ∧ v = wv := by
          cases heq; exact ⟨rfl, rfl⟩
        constructor
        · intro ls hls
          exact absurd hls (hns ls)
        · intro _
          rw [rewrite_trigger_options_lookup_pres game_name r2w extraOptions
            rest cur cur' k h ?_]
          · exact hsnap (k, v) (List.mem_cons_self _ _)
          · intro q hq ls0 ls0' hq1 hq2
            refine ⟨?_, ?_⟩
            · intro hc
              apply hrest_ne_head q hq
              rw [hq1, ← hc]
            · intro hc
              apply hfr ls0 ls0'
                (by rw [← hq1]; exact List.mem_map_of_mem Prod.fst (List.mem_cons_of_mem _ hq)) hq2
              rw [← hc]
              exact hheadmem
      · exact ih cur cur' h hnd
          (fun q hq => hsnap q (List.mem_cons_of_mem _ hq)) hsnd.2
          (fun ls ls' hls hls' => hfr ls ls' (List.mem_cons_of_mem _ hls) hls')
          (fun ls1 ls2 ls' h1 h2 h3 h4 => hinj ls1 ls2 ls'
            (List.mem_cons_of_mem _ h1) (List.mem_cons_of_mem _ h2) h3 h4)
          k v hkv'

/-! ### C4: first-pass trigger rewriting -/

theorem rewrite_trigger_affected_eq (game_name : String)
    (r2w : List (String × String)) (extraOptions : List (String × ApOption))
    (t : Trigger) (wn res res' : String) (w : List (String × Value))
    (oo : ApOption) (on0 : String) (nwn : List (String × String))
    (es inner inner' : ValueMap)
    (hcat : t.option_category = game_name)
    (hn : dlookup r2w t.option_name = some wn)
    (hlo : dlookup extraOptions wn = some (.wrapped w oo on0 nwn))
    (hres : t.option_result = .str res)
    (hresl : dlookup nwn res = some res')
    (hopts : t.options = .dict es)
    (hges : es.lookup (.str game_name) = some (.dict inner))
    (h6 : rewrite_trigger_options game_name r2w extraOptions
      inner.entries inner = .ok inner') :
    rewrite_trigger game_name r2w extraOptions t =
      .ok { t with
            option_name := wn
            option_result := .str res'
            options := .dict (es.set (.str game_name) (.dict inner')) } := by
  simp only [rewrite_trigger, hcat, hn, hlo, hres, hresl, hopts, hges, h6,
    bind, Except.bind]
  rw [if_neg (show ¬ (game_name ≠ game_name) from fun hc => hc rfl)]

/-- C4 counterexample: the claim omits the `option_category` guard.  The
trigger `exTrigRootCat` belongs to game `g`, its `option_name` `a` names
a just-wrapped option (the run's name map sends `a` to `w0`) and its
`option_result` `x` is one of `a`'s original labels, yet after the first
pass it is left untouched — its `option_name` is still `a`, not the
wrapper name — because its `option_category` is `""` (root scope), not
the game name. -/
theorem C4_category_guard_counterexample :
    (obfuscate_game_wrap genW "g" true exRootT (build_extra_games exRootT.games []) 0).toOption.map
      (fun rp => rp.1.games.map (fun g => g.triggers.map Trigger.option_name)) =
      some [["a", "w0"]] ∧
    (obfuscate_game_wrap genW "g" true exRootT (build_extra_games exRootT.games []) 0).toOption.map
      (fun rp => rp.1.games.map (fun g => g.triggers.head?)) =
      some [some exTrigRootCat] ∧
    (ContextExtra.create_wrapper_options genW ⟨"g", [], []⟩
      (exGameT.options.filter (fun kv => kv.2.isWeightedOption)) 0).toOption.map
      (fun q => q.2.1) = some [("a", "w0")] ∧
    exTrigRootCat.option_category = "" ∧
    exTrigRootCat.option_name = "a" ∧
    exTrigRootCat.option_result = .str "x" ∧
    ("a", ApOption.weighted [("x", .int 1)]) ∈ exGameT.options := by
  exact ⟨rfl, rfl, rfl, rfl, rfl, rfl, by decide⟩

/-- C4 amended: during pass 0, every pre-existing trigger of a game whose
`option_category` equals the game name and whose `option_name` names a
just-wrapped option (with its `option_result` one of that option's
original labels — else the rewrite raises a `KeyError`) is rewritten in
place: `option_name` becomes the wrapper name, `option_result` the
corresponding wrapper label, every override entry in the trigger's
per-game map whose key names a just-wrapped option moves under the
wrapper's name with a bare-label override first normalized to a
single-entry weight-1 mapping and its labels renamed through the
wrapper's label bijection, and other entries are unchanged (freshness of
the generated names, as the alphabet ensures in practice, is assumed). -/
theorem C4_amended_first_pass_rewrite (game_name : String)
    (r2w : List (String × String)) (extraOptions : List (String × ApOption))
    (t : Trigger) (wn res res' : String) (w : List (String × Value))
    (oo : ApOption) (on0 : String) (nwn : List (String × String))
    (es inner inner' : ValueMap)
    (hcat : t.option_category = game_name)
    (hn : dlookup r2w t.option_name = some wn)
    (hlo : dlookup extraOptions wn = some (.wrapped w oo on0 nwn))
    (hres : t.option_result = .str res)
    (hresl : dlookup nwn res = some res')
    (hopts : t.options = .dict es)
    (hges : es.lookup (.str game_name) = some (.dict inner))
    (h6 : rewrite_trigger_options game_name r2w extraOptions
      inner.entries inner = .ok inner')
    (hind : inner.keys.Nodup)
    (hfr : ∀ s wns, (Value.str s) ∈ inner.keys → dlookup r2w s = some wns →
      (Value.str wns) ∉ inner.keys)
    (hinj : ∀ s1 s2 wns, (Value.str s1) ∈ inner.keys →
      (Value.str s2) ∈ inner.keys → dlookup r2w s1 = some wns →
      dlookup r2w s2 = some wns → s1 = s2) :
    (rewrite_trigger game_name r2w extraOptions t =
      .ok { t with
            option_name := wn
            option_result := .str res'
            options := .dict (es.set (.str game_name) (.dict inner')) }) ∧
    (∀ (k v : Value), (k, v) ∈ inner.entries →
      (∀ s, k = .str s → ∀ wns, dlookup r2w s = some wns →
        ∀ w2 oo2 on2 nwn2,
          dlookup extraOptions wns = some (.wrapped w2 oo2 on2 nwn2) →
          inner'.lookup (.str wns) =
            some (.dict (rename_weights nwn2 (normalize_weights_value v).entries
              (normalize_weights_value v))) ∧
          inner'.lookup (.str s) = none) ∧
      ((∀ s, k = .str s → dlookup r2w s = none) → inner'.lookup k = some v)) ∧
    (∀ (wvm : ValueMap) (nwn2 : List (String × String)),
      wvm.keys.Nodup →
      (∀ ls ls', (Value.str ls) ∈ wvm.keys → dlookup nwn2 ls = some ls' →
        (Value.str ls') ∉ wvm.keys) →
      (∀ ls1 ls2 ls', (Value.str ls1) ∈ wvm.keys → (Value.str ls2) ∈ wvm.keys →
        dlookup nwn2 ls1 = some ls' → dlookup nwn2 ls2 = some ls' → ls1 = ls2) →
      ∀ (lk lv : Value), (lk, lv) ∈ wvm.entries →
        (∀ ls, lk = .str ls → ∀ ls', dlookup nwn2 ls = some ls' →
          (rename_weights nwn2 wvm.entries wvm).lookup (.str ls') = some lv ∧
          (rename_weights nwn2 wvm.entries wvm).lookup (.str ls) = none) ∧
        ((∀ ls, lk = .str ls → dlookup nwn2 ls = none) →
          (rename_weights nwn2 wvm.entries wvm).lookup lk = some lv)) := by
  refine ⟨rewrite_trigger_affected_eq game_name r2w extraOptions t wn res res'
    w oo on0 nwn es inner inner' hcat hn hlo hres hresl hopts hges h6, ?_, ?_⟩
  · intro k v hkv
    exact rewrite_trigger_options_spec game_name r2w extraOptions inner.entries
      inner inner' h6 hind (fun p hp => vm_entries_lookup inner p.1 p.2 hind hp)
      (by rw [vm_entries_fst]; exact hind)
      (fun s wns hs => hfr s wns (by rwa [vm_entries_fst] at hs))
      (fun s1 s2 wns h1 h2 => hinj s1 s2 wns (by rwa [vm_entries_fst] at h1)
        (by rwa [vm_entries_fst] at h2))
      k v hkv
  · intro wvm nwn2 hwnd hwfr hwinj lk lv hlkv
    exact rename_weights_spec nwn2 wvm.entries wvm hwnd
      (fun p hp => vm_entries_lookup wvm p.1 p.2 hwnd hp)
      (by rw [vm_entries_fst]; exact hwnd)
      (fun ls ls' hls => hwfr ls ls' (by rwa [vm_entries_fst] at hls))
      (fun ls1 ls2 ls' h1 h2 => hwinj ls1 ls2 ls' (by rwa [vm_entries_fst] at h1)
        (by rwa [vm_entries_fst] at h2))
      lk lv hlkv

/-- Witness for `C4_amended_first_pass_rewrite` on the fully affected
trigger `exTrigGCat` under the wrapping `a ↦ w0`, `x ↦ w1`. -/
theorem C4_amended_first_pass_rewrite_witness :
    (rewrite_trigger "g" [("a", "w0")] [("w0", exWrapped)] exTrigGCat =
      .ok { exTrigGCat with
            option_name := "w0"
            option_result := .str "w1"
            options := .dict ((ValueMap.cons (.str "g")
              (.dict (.cons (.str "a") (.str "x") .nil)) .nil).set (.str "g")
              (.dict exInner')) }) ∧
    exInner'.lookup (.str "w0") =
      some (.dict (rename_weights [("x", "w1")]
        (normalize_weights_value (.str "x")).entries
        (normalize_weights_value (.str "x")))) ∧
    exInner'.lookup (.str "a") = none ∧
    (rename_weights [("x", "w1")] (normalize_weights_value (.str "x")).entries
      (normalize_weights_value (.str "x"))).lookup (.str "w1") = some (.int 1) ∧
    (rename_weights [("x", "w1")] (normalize_weights_value (.str "x")).entries
      (normalize_weights_value (.str "x"))).lookup (.str "x") = none := by
  have h := C4_amended_first_pass_rewrite "g" [("a", "w0")] [("w0", exWrapped)]
    exTrigGCat "w0" "x" "w1" [("w1", .int 1)] (.weighted [("x", .int 1)]) "a"
    [("x", "w1")] (.cons (.str "g") (.dict (.cons (.str "a") (.str "x") .nil)) .nil)
    (.cons (.str "a") (.str "x") .nil) exInner'
    (by rfl) (by rfl) (by rfl) (by rfl) (by rfl) (by rfl) (by rfl) (by rfl)
    (by decide)
    (by
      intro s wns hs hl
      have hs' : Value.str s = Value.str "a" := by
        rcases List.mem_cons.mp hs with h | h
        · exact h
        · exact absurd h (List.not_mem_nil _)
      obtain rfl : s = "a" := Value.str.inj hs'
      obtain rfl : wns = "w0" := by
        have h0 : dlookup [("a", "w0")] "a" = some "w0" := rfl
        rw [h0] at hl
        exact (Option.some.inj hl).symm
      decide)
    (by
      intro s1 s2 wns h1 h2 hl1 hl2
      have e1 : Value.str s1 = Value.str "a" := by
        rcases List.mem_cons.mp h1 with h | h
        · exact h
        · exact absurd h (List.not_mem_nil _)
      have e2 : Value.str s2 = Value.str "a" := by
        rcases List.mem_cons.mp h2 with h | h
        · exact h
        · exact absurd h (List.not_mem_nil _)
      rw [Value.str.inj e1, Value.str.inj e2])
  obtain ⟨h1, h2, h3⟩ := h
  have hko := h2 (.str "a") (.str "x") (by decide) |>.1 "a" rfl "w0" rfl
    [("w1", .int 1)] (.weighted [("x", .int 1)]) "a" [("x", "w1")] rfl
  have hlab := h3 (normalize_weights_value (.str "x")) [("x", "w1")]
    (by decide)
    (by
      intro ls ls' hls hll
      have hs' : Value.str ls = Value.str "x" := by
        rcases List.mem_cons.mp hls with h | h
        · exact h
        · exact absurd h (List.not_mem_nil _)
      obtain rfl : ls = "x" := Value.str.inj hs'
      obtain rfl : ls' = "w1" := by
        have h0 : dlookup [("x", "w1")] "x" = some "w1" := rfl
        rw [h0] at hll
        exact (Option.some.inj hll).symm
      decide)
    (by
      intro ls1 ls2 ls' h1 h2 hl1 hl2
      have e1 : Value.str ls1 = Value.str "x" := by
        rcases List.mem_cons.mp h1 with h | h
        · exact h
        · exact absurd h (List.not_mem_nil _)
      have e2 : Value.str ls2 = Value.str "x" := by
        rcases List.mem_cons.mp h2 with h | h
        · exact h
        · exact absurd h (List.not_mem_nil _)
      rw [Value.str.inj e1, Value.str.inj e2])
    (.str "x") (.int 1) (by decide)
  have hlab1 := hlab.1 "x" rfl "w1" rfl
  exact ⟨h1, hko.1, hko.2, hlab1.1, hlab1.2⟩
